import Mathlib

/-!
Verification of the nested-selector unwrapping transform (src/index.js).

The development embeds the two pure functions of the source, `combineSelectors`
and `buildFlattenedSelectors`, over a chain view of the rule tree, and the
`OnceExit` driver body over an explicit tree of nodes addressed by paths.
String primitives (`split`, `trim`, `slice`, `join`) are modelled structurally
over the character list with JavaScript semantics so that concrete inputs
evaluate inside proofs.
-/

namespace UNS

/-! ## String helpers with JavaScript semantics -/

/-- JavaScript `String.prototype.trim`: strip whitespace from both ends. -/
def jsTrim (s : String) : String :=
  String.mk (((s.data.dropWhile Char.isWhitespace).reverse.dropWhile Char.isWhitespace).reverse)

/-- Splitter for `selector.split(',')`: split on every comma; the empty string
splits to `[""]`, as in JavaScript. -/
def splitCommaAux (cur : List Char) : List Char → List (List Char)
  | [] => [cur.reverse]
  | c :: rest =>
    if c = ',' then cur.reverse :: splitCommaAux [] rest
    else splitCommaAux (c :: cur) rest

/-- JavaScript `selector.split(',')`. -/
def jsSplitComma (s : String) : List String :=
  (splitCommaAux [] s.data).map String.mk

/-- JavaScript `array.join(',')`: `[] → ""`, one separator between entries. -/
def joinComma : List String → String
  | [] => ""
  | [s] => s
  | s :: rest => s ++ "," ++ joinComma rest

/-! ## Selector combiner (src/index.js lines 8-14) -/

/-- `combineSelectors(parentSelector, childSelector)`: if the child selector
starts with `'&'`, concatenate the parent selector with the child selector
minus its leading `'&'`; otherwise join them with a single space. -/
def combineSelectors (parentSelector childSelector : String) : String :=
  match childSelector.data with
  | '&' :: rest => parentSelector ++ String.mk rest
  | _ => parentSelector ++ " " ++ childSelector

/-! ## Ancestor chain view and the selector-set builder (src/index.js lines 25-51) -/

/-- The part of a tree node that `buildFlattenedSelectors` reads: its selector
text (`""` models both a missing and an empty `selector` property, the two
JavaScript-falsy cases) and its parent link.  The tree root is the chain node
with selector `""`; `none` models a `null`/`undefined` argument. -/
inductive JNode where
  | mk (selector : String) (parent : Option JNode)

/-- `buildFlattenedSelectors(rule)`: empty for a missing rule or missing
selector; otherwise split the selector on commas and trim each piece, compute
the parent's flattened selectors recursively, return the own selectors when
the parent set is empty, and otherwise push `combineSelectors(p, c)` for each
parent selector `p` (outer loop) and own selector `c` (inner loop). -/
def buildFlattenedSelectors : Option JNode → List String
  | none => []
  | some (JNode.mk sel parent) =>
    if sel = "" then []
    else
      let selectors := (jsSplitComma sel).map jsTrim
      let parentSelectors := buildFlattenedSelectors parent
      if parentSelectors.length = 0 then selectors
      else
        parentSelectors.foldl
          (fun acc parentSelector =>
            selectors.foldl
              (fun acc2 childSelector => acc2 ++ [combineSelectors parentSelector childSelector])
              acc)
          []

/-- Call depth of the recursion of `buildFlattenedSelectors`: one call per
chain node, following `rule.parent`. -/
def chainDepth : Option JNode → Nat
  | none => 0
  | some (JNode.mk _ parent) => chainDepth parent + 1

/-- `buildFlattenedSelectors` as the JavaScript engine executes it: a
recursive procedure with a finite call-stack budget.  `none` means the budget
was exhausted before the recursion bottomed out. -/
def buildFlattenedSelectorsFuel : Nat → Option JNode → Option (List String)
  | 0, _ => none
  | _ + 1, none => some []
  | fuel + 1, some (JNode.mk sel parent) =>
    if sel = "" then some []
    else
      match buildFlattenedSelectorsFuel fuel parent with
      | none => none
      | some parentSelectors =>
        let selectors := (jsSplitComma sel).map jsTrim
        if parentSelectors.length = 0 then some selectors
        else
          some (parentSelectors.foldl
            (fun acc parentSelector =>
              selectors.foldl
                (fun acc2 childSelector => acc2 ++ [combineSelectors parentSelector childSelector])
                acc)
            [])

/-! ## The rule tree -/

/-- A PostCSS tree node as the transform observes it: a declaration (leaf), a
style rule with selector text and children, or any other container node kind
(e.g. an at-rule), which has children but no selector.  `id` is a node
identity: PostCSS nodes are mutable objects distinguished by reference, and
the identity stands for that reference. -/
inductive Node where
  | decl (id : Nat) (prop : String) (value : String)
  | rule (id : Nat) (selector : String) (nodes : List Node)
  | other (id : Nat) (nodes : List Node)

/-- Node identity. -/
def nid : Node → Nat
  | Node.decl i _ _ => i
  | Node.rule i _ _ => i
  | Node.other i _ => i

/-- Children of a node (`node.nodes`; declarations are leaves). -/
def kidsOf : Node → List Node
  | Node.decl _ _ _ => []
  | Node.rule _ _ ns => ns
  | Node.other _ ns => ns

/-- Replace a node's child list, keeping everything else. -/
def withKids : Node → List Node → Node
  | Node.decl i p v, _ => Node.decl i p v
  | Node.rule i s _, ks => Node.rule i s ks
  | Node.other i _, ks => Node.other i ks

/-- `node.type === 'decl'`. -/
def isDeclNode : Node → Bool
  | Node.decl _ _ _ => true
  | _ => false

/-- `node.type === 'rule'`. -/
def isRuleNode : Node → Bool
  | Node.rule _ _ _ => true
  | _ => false

/-- Selector text of a node; non-rule nodes have none (`""`). -/
def selOf : Node → String
  | Node.rule _ s _ => s
  | _ => ""

/-- `rule.nodes.some((node) => node.type === 'decl')`. -/
def hasDeclChild : Node → Bool
  | Node.rule _ _ ns => ns.any isDeclNode
  | _ => false

/-- Node of a forest at a path of child indices (`[]` is the root itself,
which is not a node of the forest, hence `none`). -/
def getAt : List Node → List Nat → Option Node
  | _, [] => none
  | ns, [i] => ns[i]?
  | ns, i :: rest => (ns[i]?).bind fun n => getAt (kidsOf n) rest

/-- `node.remove()` for the node at the given path: splice it out of its
parent's child list.  Invalid paths leave the forest unchanged. -/
def removeAt : List Node → List Nat → List Node
  | ns, [] => ns
  | ns, [i] => ns.eraseIdx i
  | ns, i :: rest =>
    match ns[i]? with
    | none => ns
    | some n => ns.set i (withKids n (removeAt (kidsOf n) rest))

/-- The `rule.parent` chain of the node at a path, as
`buildFlattenedSelectors` reads it: each ancestor contributes its selector
text (none for the root and for non-rule nodes), linked upward. -/
def chainGo : JNode → List Node → List Nat → Option JNode
  | parentJ, _, [] => some parentJ
  | parentJ, ns, i :: rest =>
    match ns[i]? with
    | none => none
    | some n => chainGo (JNode.mk (selOf n) (some parentJ)) (kidsOf n) rest

/-- Chain view of the node at a path, rooted at the `Root` sentinel. -/
def chainAt (roots : List Node) (p : List Nat) : Option JNode :=
  chainGo (JNode.mk "" none) roots p

/-- Worker for `prune`, consuming the reversed path so the recursion is
structural.  Each step mirrors one iteration of the upward loop of
src/index.js lines 85-95: stop at the root or at any node that is not a rule
or still has children; remove an empty rule and continue with its parent. -/
def pruneAux : List Node → List Nat → List Node
  | roots, [] => roots
  | roots, j :: rq =>
    match getAt roots ((j :: rq).reverse) with
    | some (Node.rule _ _ []) => pruneAux (removeAt roots ((j :: rq).reverse)) rq
    | _ => roots

/-- The upward pruning walk of src/index.js lines 85-95, started at the node
at path `q` (the visited rule's parent): while the current ancestor is a rule
with zero children, remove it and continue with its parent; `q = []` is the
root, where the walk stops. -/
def prune (roots : List Node) (q : List Nat) : List Node :=
  pruneAux roots q.reverse

/-- Body of the `walkRules` callback of src/index.js lines 74-95, applied to
the rule at path `p`.  If the parent is not the root (path length at least 2)
and the rule has a declaration child, clone it with the flattened selector
list joined by commas, append the clone to the root, and remove the original;
in every case run the upward pruning walk from the parent. -/
def visit (roots : List Node) (p : List Nat) : List Node :=
  match getAt roots p with
  | some (Node.rule i _sel ns) =>
    if 2 ≤ p.length ∧ ns.any isDeclNode = true then
      prune
        (removeAt
          (roots ++ [Node.rule i (joinComma (buildFlattenedSelectors (chainAt roots p))) ns]) p)
        p.dropLast
    else prune roots p.dropLast
  | _ => roots

/-- All node identities of a forest, in document pre-order. -/
def idsL : List Node → List Nat
  | [] => []
  | Node.decl i _ _ :: t => i :: idsL t
  | Node.rule i _ ns :: t => (i :: idsL ns) ++ idsL t
  | Node.other i ns :: t => (i :: idsL ns) ++ idsL t

/-- Identities of one node's subtree, in pre-order. -/
def idsN : Node → List Nat
  | Node.decl i _ _ => [i]
  | Node.rule i _ ns => i :: idsL ns
  | Node.other i ns => i :: idsL ns

/-- Identities of all rule nodes of a forest, in document pre-order: the
order in which `walkRules` visits rules. -/
def ruleIdsL : List Node → List Nat
  | [] => []
  | Node.decl _ _ _ :: t => ruleIdsL t
  | Node.rule i _ ns :: t => (i :: ruleIdsL ns) ++ ruleIdsL t
  | Node.other _ ns :: t => ruleIdsL ns ++ ruleIdsL t

/-- Prepend one level to the head of a path option (sibling shift). -/
def shiftPath : Option (List Nat) → Option (List Nat)
  | some (j :: p) => some ((j + 1) :: p)
  | some [] => some []
  | none => none

/-- Path of the first node (document pre-order) with the given identity. -/
def findIn (i : Nat) : List Node → Option (List Nat)
  | [] => none
  | Node.decl d _ _ :: t =>
    if d = i then some [0] else shiftPath (findIn i t)
  | Node.rule d _ ns :: t =>
    if d = i then some [0]
    else
      match findIn i ns with
      | some p => some (0 :: p)
      | none => shiftPath (findIn i t)
  | Node.other d ns :: t =>
    if d = i then some [0]
    else
      match findIn i ns with
      | some p => some (0 :: p)
      | none => shiftPath (findIn i t)

/-- Identities of the rules with declaration children that are nested inside
some rule node.  `inRule` records whether the scope already lies inside a
rule. -/
def ndrL (inRule : Bool) : List Node → List Nat
  | [] => []
  | Node.decl _ _ _ :: t => ndrL inRule t
  | Node.rule d _ ns :: t =>
    ((if inRule && ns.any isDeclNode then [d] else []) ++ ndrL true ns) ++ ndrL inRule t
  | Node.other _ ns :: t => ndrL inRule ns ++ ndrL inRule t

/-- Contribution of a single node's subtree to `ndrL`. -/
def ndrN (inRule : Bool) : Node → List Nat
  | Node.decl _ _ _ => []
  | Node.rule d _ ns =>
    (if inRule && ns.any isDeclNode then [d] else []) ++ ndrL true ns
  | Node.other _ ns => ndrL inRule ns

/-- Whether the node at a path has a rule among its proper ancestors within
the forest, starting from ambient flag `f` (`false` at the root). -/
def flagAt (f : Bool) : List Node → List Nat → Bool
  | _, [] => f
  | _, [_] => f
  | ns, j :: rest =>
    match ns[j]? with
    | some (Node.rule _ _ ks) => flagAt true ks rest
    | some (Node.other _ ks) => flagAt f ks rest
    | _ => f

/-- One step of the traversal: locate the rule with the given identity and
apply the callback body to it; a rule no longer in the tree is a no-op. -/
def runStep (roots : List Node) (i : Nat) : List Node :=
  match findIn i roots with
  | some p => visit roots p
  | none => roots

/-- Modelled from the spec: the `walkRules` traversal itself belongs to the
host PostCSS pipeline, not to this repository's source.  Per the spec the
driver visits every rule node exactly once, in pre-order document order,
collecting the rules up front, and visiting a rule that a prior step has
removed from the tree must be a no-op.  Rules are tracked by node identity;
a promoted clone keeps the identities of its copied children, so a rule that
was copied into an appended clone is visited at its current location in the
tree, and a rule that is no longer attached is skipped. -/
def onceExit (roots : List Node) : List Node :=
  (ruleIdsL roots).foldl runStep roots

/-- `true` when no rule with declaration children sits strictly inside any of
these nodes, at any depth. -/
def ddrFree : List Node → Bool
  | [] => true
  | Node.decl _ _ _ :: t => ddrFree t
  | Node.rule _ _ ns :: t => (!ns.any isDeclNode) && ddrFree ns && ddrFree t
  | Node.other _ ns :: t => ddrFree ns && ddrFree t

/-- Every rule that has declaration children is a direct child of the root. -/
def flatCond (roots : List Node) : Bool :=
  roots.all fun n => ddrFree (kidsOf n)

/-- Some direct child of the root has identity `x` and a declaration child. -/
def atRootDecl (t : List Node) (x : Nat) : Prop :=
  ∃ (j : Nat) (n : Node), t[j]? = some n ∧ nid n = x ∧ hasDeclChild n = true

/-- Invariant of the traversal, for an input forest `input` and remaining
visit list `rem`: every currently nested declaration-bearing rule is still to
be visited; identities stay distinct; the nesting census of ids still to be
visited is unchanged; and every input nested declaration-bearing rule that
has been visited now sits at the root with its declarations. -/
def MInv (input t : List Node) (rem : List Nat) : Prop :=
  (∀ x, x ∈ ndrL false t → x ∈ rem) ∧
  (idsL t).Nodup ∧
  (∀ x, x ∈ rem → (ndrL false t).count x = (ndrL false input).count x) ∧
  (∀ x, x ∈ ndrL false input → x ∉ rem → atRootDecl t x)

/-! ## Helper lemmas: folds and string-level facts -/

theorem foldl_push_map {α β : Type} (g : α → β) :
    ∀ (l : List α) (acc : List β), l.foldl (fun a c => a ++ [g c]) acc = acc ++ l.map g
  | [], acc => by simp
  | c :: t, acc => by
    simp only [List.foldl_cons, foldl_push_map g t (acc ++ [g c]), List.map_cons]
    simp

theorem foldl_push_bind (ps ss : List String) :
    ∀ acc,
      ps.foldl
        (fun acc parentSelector =>
          ss.foldl (fun a c => a ++ [combineSelectors parentSelector c]) acc) acc
      = acc ++ ps.flatMap fun p => ss.map fun c => combineSelectors p c := by
  induction ps with
  | nil => intro acc; simp
  | cons p t ih =>
    intro acc
    simp only [List.foldl_cons]
    rw [ih, foldl_push_map]
    simp

/-! ## Claim theorems: selector level -/

/-- C3: for every pair of strings, if the child selector starts with the
character `'&'` then `combineSelectors` returns the parent selector
concatenated directly with the child selector minus its leading `'&'`, with
no inserted whitespace; otherwise it returns the parent selector, a single
space, and the child selector.  In particular
`combineSelectors ".a" "&:hover" = ".a:hover"` and
`combineSelectors ".a" ".b" = ".a .b"`. -/
theorem combineSelectors_spec (p c : String) :
    combineSelectors p c =
      (if c.data.head? = some '&' then p ++ String.mk c.data.tail
       else p ++ " " ++ c) ∧
    combineSelectors ".a" "&:hover" = ".a:hover" ∧
    combineSelectors ".a" ".b" = ".a .b" := by
  refine ⟨?_, rfl, rfl⟩
  unfold combineSelectors
  split
  next rest heq => rw [heq]; simp
  next x hne =>
    rw [if_neg ?hne2]
    case hne2 =>
      intro hh
      cases hcd : c.data with
      | nil => rw [hcd] at hh; exact Option.noConfusion hh
      | cons a l =>
        rw [hcd] at hh
        have ha : a = '&' := by simpa using hh
        exact hne l (by rw [hcd, ha])

/-- C7: `buildFlattenedSelectors` returns the empty list when its argument is
absent (`null`/`undefined`) and when the argument's selector text is absent
or empty (both JavaScript-falsy, modelled as `""`), whatever the parent
chain; such input is not an error. -/
theorem buildFlattenedSelectors_absent :
    buildFlattenedSelectors none = [] ∧
    ∀ parent, buildFlattenedSelectors (some (JNode.mk "" parent)) = [] := by
  refine ⟨by simp [buildFlattenedSelectors], fun parent => ?_⟩
  simp [buildFlattenedSelectors]

/-- C2: for a rule present with non-empty selector text, the flattened
selectors are: the own selector set (selector split on commas, each piece
trimmed, order preserved) when the recursively computed parent flattened set
is empty, and otherwise the full cross-product combining each parent selector
(outer) with each own selector (inner), parent-major order; in the latter
case the length is the product of the two set sizes. -/
theorem buildFlattenedSelectors_spec (sel : String) (parent : Option JNode)
    (h : sel ≠ "") :
    buildFlattenedSelectors (some (JNode.mk sel parent)) =
      (if buildFlattenedSelectors parent = [] then (jsSplitComma sel).map jsTrim
       else (buildFlattenedSelectors parent).flatMap
         fun ps => ((jsSplitComma sel).map jsTrim).map
           fun cs => combineSelectors ps cs) ∧
    (buildFlattenedSelectors parent ≠ [] →
      (buildFlattenedSelectors (some (JNode.mk sel parent))).length =
        (buildFlattenedSelectors parent).length *
          ((jsSplitComma sel).map jsTrim).length) := by
  have hmain :
      buildFlattenedSelectors (some (JNode.mk sel parent)) =
        (if buildFlattenedSelectors parent = []
         then (jsSplitComma sel).map jsTrim
         else (buildFlattenedSelectors parent).flatMap
           fun ps => ((jsSplitComma sel).map jsTrim).map
             fun cs => combineSelectors ps cs) := by
    rw [buildFlattenedSelectors]
    simp only [if_neg h]
    by_cases hp : buildFlattenedSelectors parent = []
    · simp [hp]
    · rw [if_neg hp, if_neg (by simpa [List.length_eq_zero] using hp)]
      rw [foldl_push_bind]
      simp
  refine ⟨hmain, fun hp => ?_⟩
  rw [hmain, if_neg hp, List.length_flatMap]
  simp only [Function.comp_def, List.length_map]
  rw [List.map_const', List.sum_replicate, smul_eq_mul]

/-- C2 witness: a concrete rule with two own selectors under a parent with
two flattened selectors, exercising the cross-product branch. -/
theorem buildFlattenedSelectors_spec_witness :
    (".x,.y" : String) ≠ "" ∧
    (buildFlattenedSelectors (some (JNode.mk ".x,.y" (some (JNode.mk ".a,.b" none)))) =
      (if buildFlattenedSelectors (some (JNode.mk ".a,.b" none)) = []
       then (jsSplitComma ".x,.y").map jsTrim
       else (buildFlattenedSelectors (some (JNode.mk ".a,.b" none))).flatMap
         fun ps => ((jsSplitComma ".x,.y").map jsTrim).map
           fun cs => combineSelectors ps cs) ∧
     (buildFlattenedSelectors (some (JNode.mk ".a,.b" none)) ≠ [] →
      (buildFlattenedSelectors (some (JNode.mk ".x,.y" (some (JNode.mk ".a,.b" none))))).length =
        (buildFlattenedSelectors (some (JNode.mk ".a,.b" none))).length *
          ((jsSplitComma ".x,.y").map jsTrim).length)) :=
  ⟨by decide, buildFlattenedSelectors_spec ".x,.y" (some (JNode.mk ".a,.b" none)) (by decide)⟩

/-- C9: on any rule whose parent chain is finite and ends at the root
sentinel (the only chains representable in the model), the recursive
procedure `buildFlattenedSelectors` terminates: with any call-stack budget
exceeding the chain depth, the fuelled execution returns, and its value is
the (total) structural result.  Cyclic or dangling parent chains are not
representable here and are outside the claim's precondition. -/
theorem buildFlattenedSelectorsFuel_total (j : Option JNode) (fuel : Nat)
    (h : chainDepth j < fuel) :
    buildFlattenedSelectorsFuel fuel j = some (buildFlattenedSelectors j) := by
  induction fuel generalizing j with
  | zero => omega
  | succ f ih =>
    cases j with
    | none => simp [buildFlattenedSelectorsFuel, buildFlattenedSelectors]
    | some jn =>
      cases jn with
      | mk sel parent =>
        by_cases hs : sel = ""
        · subst hs
          simp [buildFlattenedSelectorsFuel, buildFlattenedSelectors]
        · have hd : chainDepth parent < f := by
            have := h; simp only [chainDepth] at this; omega
          rw [buildFlattenedSelectorsFuel, buildFlattenedSelectors, ih parent hd]
          by_cases hp : buildFlattenedSelectors parent = [] <;>
            simp [hp, hs, List.length_eq_zero]

/-- C9 witness: a depth-two chain runs to completion with budget 3. -/
theorem buildFlattenedSelectorsFuel_total_witness :
    chainDepth (some (JNode.mk ".b" (some (JNode.mk ".a" none)))) < 3 ∧
    buildFlattenedSelectorsFuel 3 (some (JNode.mk ".b" (some (JNode.mk ".a" none)))) =
      some (buildFlattenedSelectors (some (JNode.mk ".b" (some (JNode.mk ".a" none))))) :=
  ⟨by simp [chainDepth], buildFlattenedSelectorsFuel_total _ 3 (by simp [chainDepth])⟩

/-! ## Helper lemmas: paths and node surgery -/

theorem getAt_cons (t : List Node) (j : Nat) (rest : List Nat) :
    getAt t (j :: rest) =
      t[j]?.bind fun n => if rest = [] then some n else getAt (kidsOf n) rest := by
  cases rest with
  | nil => cases h : t[j]? <;> simp [getAt, h]
  | cons a l => rfl

theorem getAt_cons_ne (t : List Node) (j : Nat) {rest : List Nat} (h : rest ≠ []) :
    getAt t (j :: rest) = t[j]?.bind fun n => getAt (kidsOf n) rest := by
  rw [getAt_cons]
  cases t[j]? <;> simp [h]

theorem getAt_head_lt {t : List Node} {j : Nat} {rest : List Nat} {n : Node}
    (h : getAt t (j :: rest) = some n) : j < t.length := by
  rw [getAt_cons] at h
  cases hj : t[j]? with
  | none => rw [hj] at h; simp at h
  | some m => exact (List.getElem?_eq_some_iff.mp hj).1

theorem getAt_append_left {a : List Node} (b : List Node) (j : Nat) (rest : List Nat)
    (hj : j < a.length) : getAt (a ++ b) (j :: rest) = getAt a (j :: rest) := by
  rw [getAt_cons, getAt_cons, List.getElem?_append_left hj]

theorem getAt_shift (n : Node) (t : List Node) (j : Nat) (rest : List Nat) :
    getAt (n :: t) ((j + 1) :: rest) = getAt t (j :: rest) := by
  rw [getAt_cons, getAt_cons, List.getElem?_cons_succ]

theorem getAt_zero (n : Node) (t : List Node) (rest : List Nat) :
    getAt (n :: t) (0 :: rest) = if rest = [] then some n else getAt (kidsOf n) rest := by
  rw [getAt_cons, List.getElem?_cons_zero]
  rfl

theorem getAt_snoc (q : List Nat) (k : Nat) :
    ∀ t : List Node,
      getAt t (q ++ [k]) =
        (if q = [] then t[k]? else (getAt t q).bind fun par => (kidsOf par)[k]?) := by
  induction q with
  | nil => intro t; simp [getAt]
  | cons j q' ih =>
    intro t
    rw [List.cons_append, getAt_cons_ne t j (by simp), if_neg (by simp)]
    cases hj : t[j]? with
    | none =>
      cases q' with
      | nil => simp [getAt, hj]
      | cons b l => rw [getAt_cons_ne t j (by simp)]; simp [hj]
    | some m =>
      simp only [Option.some_bind]
      rw [ih (kidsOf m)]
      cases q' with
      | nil => simp [getAt, hj]
      | cons b l =>
        rw [if_neg (by simp), getAt_cons_ne t j (by simp)]
        simp [hj]

/-! ids decompositions -/

theorem idsL_cons (n : Node) (t : List Node) : idsL (n :: t) = idsN n ++ idsL t := by
  cases n <;> simp [idsL, idsN]

theorem idsL_append (a b : List Node) : idsL (a ++ b) = idsL a ++ idsL b := by
  induction a with
  | nil => simp [idsL]
  | cons n t ih => rw [List.cons_append, idsL_cons, idsL_cons, ih, List.append_assoc]

theorem idsN_withKids {m : Node} (h : isDeclNode m = false) (ks : List Node) :
    idsN (withKids m ks) = nid m :: idsL ks := by
  cases m with
  | decl => simp [isDeclNode] at h
  | rule => rfl
  | other => rfl

theorem idsN_kids {m : Node} (h : isDeclNode m = false) :
    idsN m = nid m :: idsL (kidsOf m) := by
  cases m with
  | decl => simp [isDeclNode] at h
  | rule => rfl
  | other => rfl

theorem isDeclNode_withKids (m : Node) (ks : List Node) :
    isDeclNode (withKids m ks) = isDeclNode m := by
  cases m <;> rfl

theorem nid_withKids (m : Node) (ks : List Node) : nid (withKids m ks) = nid m := by
  cases m <;> rfl

/-- Positional decomposition of a list at a valid index. -/
theorem list_eq_take_cons_drop {t : List Node} {j : Nat} {n : Node}
    (h : t[j]? = some n) : t = t.take j ++ n :: t.drop (j + 1) := by
  obtain ⟨hj, hn⟩ := List.getElem?_eq_some_iff.mp h
  conv_lhs => rw [← List.take_append_drop j t]
  rw [List.drop_eq_getElem_cons hj, hn]

theorem removeAt_single (t : List Node) (j : Nat) :
    removeAt t [j] = t.take j ++ t.drop (j + 1) := by
  rw [removeAt, List.eraseIdx_eq_take_drop_succ]

theorem removeAt_deep {t : List Node} {j : Nat} {rest : List Nat} {m : Node}
    (hrest : rest ≠ []) (hj : t[j]? = some m) :
    removeAt t (j :: rest) = t.set j (withKids m (removeAt (kidsOf m) rest)) := by
  cases rest with
  | nil => exact absurd rfl hrest
  | cons a l =>
    rw [removeAt, hj]
    simp

/-- Removing a valid subtree removes exactly its identities (counted with
multiplicity). -/
theorem ids_count_removeAt :
    ∀ (p : List Nat) (t : List Node) (n : Node), getAt t p = some n →
      ∀ x, (idsL (removeAt t p)).count x + (idsN n).count x = (idsL t).count x := by
  intro p
  induction p with
  | nil => intro t n h x; rw [getAt] at h; exact absurd h (by simp)
  | cons j rest ih =>
    intro t n h x
    cases rest with
    | nil =>
      have hj : t[j]? = some n := h
      rw [removeAt_single]
      conv_rhs => rw [list_eq_take_cons_drop hj]
      rw [idsL_append, idsL_append, idsL_cons]
      simp [List.count_append]
      omega
    | cons a l =>
      rw [getAt_cons_ne t j (by simp)] at h
      cases hj : t[j]? with
      | none => rw [hj] at h; simp at h
      | some m =>
        rw [hj] at h
        simp only [Option.some_bind] at h
        have hm : isDeclNode m = false := by
          cases m with
          | decl =>
            rw [show kidsOf (Node.decl _ _ _) = [] from rfl, getAt_cons] at h
            simp at h
          | rule => rfl
          | other => rfl
        rw [removeAt_deep (by simp) hj]
        have hjlt : j < t.length := (List.getElem?_eq_some_iff.mp hj).1
        rw [List.set_eq_take_append_cons_drop, if_pos hjlt]
        conv_rhs => rw [list_eq_take_cons_drop hj]
        rw [idsL_append, idsL_append, idsL_cons, idsL_cons,
          idsN_withKids hm, idsN_kids hm]
        have := ih (kidsOf m) n h x
        simp only [List.count_append, List.count_cons]
        omega

/-! Nested-declaration-rule census lemmas -/

theorem ndrL_cons (f : Bool) (n : Node) (t : List Node) :
    ndrL f (n :: t) = ndrN f n ++ ndrL f t := by
  cases n <;> simp [ndrL, ndrN]

theorem ndrL_append (f : Bool) (a b : List Node) :
    ndrL f (a ++ b) = ndrL f a ++ ndrL f b := by
  induction a with
  | nil => simp [ndrL]
  | cons n t ih => rw [List.cons_append, ndrL_cons, ndrL_cons, ih, List.append_assoc]

theorem flagAt_single (f : Bool) (t : List Node) (j : Nat) : flagAt f t [j] = f := rfl

theorem flagAt_cons_ne (f : Bool) (t : List Node) (j : Nat) {rest : List Nat}
    (h : rest ≠ []) :
    flagAt f t (j :: rest) =
      match t[j]? with
      | some (Node.rule _ _ ks) => flagAt true ks rest
      | some (Node.other _ ks) => flagAt f ks rest
      | _ => f := by
  cases rest with
  | nil => exact absurd rfl h
  | cons a l =>
    rw [flagAt]
    simp

/-- Removing a non-declaration node does not change whether a child list has
a declaration member. -/
theorem anyDecl_removeAt :
    ∀ (q : List Nat) (ks : List Node) (m : Node), getAt ks q = some m →
      isDeclNode m = false →
      (removeAt ks q).any isDeclNode = ks.any isDeclNode := by
  intro q
  induction q with
  | nil => intro ks m h; rw [getAt] at h; exact absurd h (by simp)
  | cons k rest ih =>
    intro ks m h hm
    cases rest with
    | nil =>
      have hk : ks[k]? = some m := h
      rw [removeAt_single]
      conv_rhs => rw [list_eq_take_cons_drop hk]
      simp [List.any_append, hm]
    | cons a l =>
      rw [getAt_cons_ne ks k (by simp)] at h
      cases hk : ks[k]? with
      | none => rw [hk] at h; simp at h
      | some w =>
        rw [hk] at h
        simp only [Option.some_bind] at h
        have hklt : k < ks.length := (List.getElem?_eq_some_iff.mp hk).1
        rw [removeAt_deep (by simp) hk, List.set_eq_take_append_cons_drop, if_pos hklt]
        conv_rhs => rw [list_eq_take_cons_drop hk]
        simp [List.any_append, isDeclNode_withKids]

/-- Removing a valid non-declaration subtree removes exactly its contribution
to the nested-declaration-rule census. -/
theorem ndr_count_removeAt :
    ∀ (p : List Nat) (t : List Node) (n : Node) (f : Bool), getAt t p = some n →
      isDeclNode n = false →
      ∀ x, (ndrL f (removeAt t p)).count x + (ndrN (flagAt f t p) n).count x =
        (ndrL f t).count x := by
  intro p
  induction p with
  | nil => intro t n f h; rw [getAt] at h; exact absurd h (by simp)
  | cons j rest ih =>
    intro t n f h hn x
    cases rest with
    | nil =>
      have hj : t[j]? = some n := h
      rw [removeAt_single, flagAt_single]
      conv_rhs => rw [list_eq_take_cons_drop hj]
      rw [ndrL_append, ndrL_append, ndrL_cons]
      simp only [List.count_append]
      omega
    | cons a l =>
      rw [getAt_cons_ne t j (by simp)] at h
      cases hj : t[j]? with
      | none => rw [hj] at h; simp at h
      | some m =>
        rw [hj] at h
        simp only [Option.some_bind] at h
        have hjlt : j < t.length := (List.getElem?_eq_some_iff.mp hj).1
        rw [removeAt_deep (by simp) hj, List.set_eq_take_append_cons_drop, if_pos hjlt]
        conv_rhs => rw [list_eq_take_cons_drop hj]
        rw [flagAt_cons_ne f t j (by simp), hj]
        rw [ndrL_append, ndrL_append, ndrL_cons, ndrL_cons]
        cases m with
        | decl d pr v =>
          rw [show kidsOf (Node.decl d pr v) = [] from rfl, getAt_cons] at h
          simp at h
        | rule d s ks =>
          have hany : (removeAt ks (a :: l)).any isDeclNode = ks.any isDeclNode :=
            anyDecl_removeAt (a :: l) ks n h hn
          have hrec := ih ks n true h hn x
          simp only [withKids, ndrN, kidsOf] at *
          rw [hany]
          simp only [List.count_append] at *
          omega
        | other d ks =>
          have hrec := ih ks n f h hn x
          simp only [withKids, ndrN, kidsOf] at *
          simp only [List.count_append] at *
          omega

/-! Pruning lemmas -/

theorem prune_nil (t : List Node) : prune t [] = t := rfl

theorem prune_eq (t : List Node) {q : List Nat} (hq : q ≠ []) :
    prune t q =
      match getAt t q with
      | some (Node.rule _ _ []) => prune (removeAt t q) q.dropLast
      | _ => t := by
  obtain ⟨l, a, rfl⟩ : ∃ l a, q = l ++ [a] :=
    ⟨q.dropLast, q.getLast hq, (List.dropLast_append_getLast hq).symm⟩
  simp only [prune, List.reverse_append, List.reverse_cons, List.reverse_nil, List.nil_append,
    List.singleton_append, pruneAux, List.reverse_reverse, List.dropLast_concat]

theorem ndr_count_pruneAux (f : Bool) :
    ∀ (rq : List Nat) (t : List Node) (x : Nat),
      (ndrL f (pruneAux t rq)).count x = (ndrL f t).count x := by
  intro rq
  induction rq with
  | nil => intro t x; rfl
  | cons j rq' ih =>
    intro t x
    rw [pruneAux]
    cases hg : getAt t ((j :: rq').reverse) with
    | none => rfl
    | some n =>
      cases n with
      | decl => rfl
      | other => rfl
      | rule d s ks =>
        cases ks with
        | cons k1 k2 => rfl
        | nil =>
          rw [ih]
          have hc := ndr_count_removeAt ((j :: rq').reverse) t (Node.rule d s []) f hg rfl x
          have : (ndrN (flagAt f t ((j :: rq').reverse)) (Node.rule d s [])).count x = 0 := by
            simp [ndrN, ndrL]
          omega

theorem ndr_count_prune (f : Bool) (t : List Node) (q : List Nat) (x : Nat) :
    (ndrL f (prune t q)).count x = (ndrL f t).count x :=
  ndr_count_pruneAux f q.reverse t x

theorem ids_count_pruneAux_le :
    ∀ (rq : List Nat) (t : List Node) (x : Nat),
      (idsL (pruneAux t rq)).count x ≤ (idsL t).count x := by
  intro rq
  induction rq with
  | nil => intro t x; exact Nat.le_refl _
  | cons j rq' ih =>
    intro t x
    rw [pruneAux]
    cases hg : getAt t ((j :: rq').reverse) with
    | none => exact Nat.le_refl _
    | some n =>
      cases n with
      | decl => exact Nat.le_refl _
      | other => exact Nat.le_refl _
      | rule d s ks =>
        cases ks with
        | cons k1 k2 => exact Nat.le_refl _
        | nil =>
          show (idsL (pruneAux (removeAt t ((j :: rq').reverse)) rq')).count x ≤
            (idsL t).count x
          have hc := ids_count_removeAt ((j :: rq').reverse) t (Node.rule d s []) hg x
          have := ih (removeAt t ((j :: rq').reverse)) x
          omega

theorem ids_count_prune_le (t : List Node) (q : List Nat) (x : Nat) :
    (idsL (prune t q)).count x ≤ (idsL t).count x :=
  ids_count_pruneAux_le q.reverse t x

theorem eraseIdx_getLast {t : List Node} {j : Nat} (h : j + 1 < t.length) :
    (t.eraseIdx j).getLast? = t.getLast? := by
  rw [List.getLast?_eq_getElem?, List.getLast?_eq_getElem?, List.length_eraseIdx]
  rw [if_pos (by omega : j < t.length)]
  rw [List.getElem?_eraseIdx_of_ge t j (t.length - 1 - 1) (by omega)]
  congr 1
  omega

theorem set_getLast {t : List Node} {j : Nat} (v : Node) (h : j + 1 < t.length) :
    (t.set j v).getLast? = t.getLast? := by
  rw [List.getLast?_eq_getElem?, List.getLast?_eq_getElem?, List.length_set]
  exact List.getElem?_set_ne (by omega)

theorem pruneAux_getLast :
    ∀ (rq : List Nat) (t : List Node) {j0 : Nat},
      rq.getLast? = some j0 → j0 + 1 < t.length →
      (pruneAux t rq).getLast? = t.getLast? ∧ t.length ≤ (pruneAux t rq).length + 1 := by
  intro rq
  induction rq with
  | nil => intro t j0 h; exact absurd h (by simp)
  | cons j rq' ih =>
    intro t j0 hlast hlt
    rw [pruneAux]
    cases hg : getAt t ((j :: rq').reverse) with
    | none => exact ⟨rfl, Nat.le_succ _⟩
    | some n =>
      cases n with
      | decl => exact ⟨rfl, Nat.le_succ _⟩
      | other => exact ⟨rfl, Nat.le_succ _⟩
      | rule d s ks =>
        cases ks with
        | cons k1 k2 => exact ⟨rfl, Nat.le_succ _⟩
        | nil =>
          show (pruneAux (removeAt t ((j :: rq').reverse)) rq').getLast? = t.getLast? ∧
            t.length ≤ (pruneAux (removeAt t ((j :: rq').reverse)) rq').length + 1
          cases rq' with
          | nil =>
            have hj : j = j0 := by simpa using hlast
            subst hj
            show (t.eraseIdx j).getLast? = t.getLast? ∧
              t.length ≤ (t.eraseIdx j).length + 1
            constructor
            · exact eraseIdx_getLast hlt
            · have hlen := List.length_eraseIdx (l := t) (i := j)
              rw [if_pos (by omega : j < t.length)] at hlen
              omega
          | cons b l =>
            have hlast' : (b :: l).getLast? = some j0 := by
              rw [← hlast]
              simp [List.getLast?_cons_cons]
            obtain ⟨qs, hqs⟩ : ∃ qs, (b :: l).reverse = j0 :: qs := by
              have : (b :: l).reverse.head? = some j0 := by
                rw [List.head?_reverse]
                exact hlast'
              cases hrev : (b :: l).reverse with
              | nil => rw [hrev] at this; simp at this
              | cons c cs =>
                rw [hrev] at this
                simp at this
                exact ⟨cs, by rw [this]⟩
            have hq : (j :: b :: l).reverse = j0 :: (qs ++ [j]) := by
              rw [List.reverse_cons, hqs]
              rfl
            rw [hq] at hg ⊢
            have hj0 : ∃ m, t[j0]? = some m := by
              rw [getAt_cons_ne t j0 (by simp)] at hg
              cases hm : t[j0]? with
              | none => rw [hm] at hg; simp at hg
              | some m => exact ⟨m, rfl⟩
            obtain ⟨m, hm⟩ := hj0
            rw [removeAt_deep (by simp) hm]
            have hlen : (t.set j0 (withKids m (removeAt (kidsOf m) (qs ++ [j])))).length
                = t.length := by rw [List.length_set]
            obtain ⟨ih1, ih2⟩ := ih (t.set j0 (withKids m (removeAt (kidsOf m) (qs ++ [j]))))
              hlast' (by rw [hlen]; exact hlt)
            refine ⟨?_, ?_⟩
            · rw [ih1, set_getLast _ hlt]
            · omega

theorem prune_getLast {t : List Node} {q : List Nat} {j : Nat}
    (hh : q.head? = some j) (hlt : j + 1 < t.length) :
    (prune t q).getLast? = t.getLast? ∧ t.length ≤ (prune t q).length + 1 :=
  pruneAux_getLast q.reverse t (by rw [List.getLast?_reverse]; exact hh) hlt

theorem kidsOf_withKids {m : Node} (h : isDeclNode m = false) (ks : List Node) :
    kidsOf (withKids m ks) = ks := by
  cases m with
  | decl => simp [isDeclNode] at h
  | rule => rfl
  | other => rfl

/-- Pruning stops immediately at a node that exists and is not an empty
rule. -/
theorem prune_stop {t : List Node} {q : List Nat} {par : Node}
    (h : getAt t q = some par) (hpar : ∀ s d, par ≠ Node.rule d s []) (hq : q ≠ []) :
    prune t q = t := by
  rw [prune_eq t hq, h]
  cases par with
  | decl => rfl
  | other => rfl
  | rule d s ks =>
    cases ks with
    | nil => exact absurd rfl (hpar s d)
    | cons a b => rfl

/-- The parent of a validly addressed node exists and has a child there. -/
theorem getAt_snoc_parent {t : List Node} {q : List Nat} {k : Nat} {n : Node}
    (h : getAt t (q ++ [k]) = some n) (hq : q ≠ []) :
    ∃ par, getAt t q = some par ∧ (kidsOf par)[k]? = some n := by
  rw [getAt_snoc, if_neg hq] at h
  cases hg : getAt t q with
  | none => rw [hg] at h; simp at h
  | some par =>
    rw [hg] at h
    simp only [Option.some_bind] at h
    exact ⟨par, rfl, h⟩

/-- Removing the `k`-th child of the node at `q` leaves that node in place
with exactly that child spliced out. -/
theorem getAt_removeAt_snoc :
    ∀ (q : List Nat) (t : List Node) (par : Node) (k : Nat) (n : Node),
      getAt t q = some par → (kidsOf par)[k]? = some n →
      getAt (removeAt t (q ++ [k])) q =
        some (withKids par ((kidsOf par).eraseIdx k)) := by
  intro q
  induction q with
  | nil => intro t par k n h; rw [getAt] at h; exact absurd h (by simp)
  | cons j q' ih =>
    intro t par k n h hk
    cases q' with
    | nil =>
      have hj : t[j]? = some par := h
      have hjlt : j < t.length := (List.getElem?_eq_some_iff.mp hj).1
      rw [List.singleton_append, removeAt_deep (by simp) hj]
      have : removeAt (kidsOf par) [k] = (kidsOf par).eraseIdx k := rfl
      rw [this]
      show (t.set j (withKids par ((kidsOf par).eraseIdx k)))[j]? = _
      rw [List.getElem?_set_self (by simpa using hjlt)]
    | cons b l =>
      rw [getAt_cons_ne t j (by simp)] at h
      cases hj : t[j]? with
      | none => rw [hj] at h; simp at h
      | some m =>
        rw [hj] at h
        simp only [Option.some_bind] at h
        have hm : isDeclNode m = false := by
          cases m with
          | decl =>
            rw [show kidsOf (Node.decl _ _ _) = [] from rfl, getAt_cons] at h
            simp at h
          | rule => rfl
          | other => rfl
        have hjlt : j < t.length := (List.getElem?_eq_some_iff.mp hj).1
        rw [List.cons_append, removeAt_deep (by simp) hj]
        rw [getAt_cons_ne _ j (by simp), List.getElem?_set_self (by simpa using hjlt)]
        simp only [Option.some_bind]
        rw [kidsOf_withKids hm]
        exact ih (kidsOf m) par k n h hk

theorem eraseIdx_set_same (t : List Node) (j : Nat) (v : Node) :
    (t.set j v).eraseIdx j = t.eraseIdx j := by
  apply List.ext_getElem?
  intro m
  rw [List.getElem?_eraseIdx, List.getElem?_eraseIdx]
  by_cases hm : m < j
  · rw [if_pos hm, if_pos hm, List.getElem?_set_ne (by omega)]
  · rw [if_neg hm, if_neg hm, List.getElem?_set_ne (by omega)]

/-- Unfolding of `visit` in the promoting case. -/
theorem visit_promote_eq (roots : List Node) (p : List Nat) (i : Nat) (sel : String)
    (ns : List Node) (h : getAt roots p = some (Node.rule i sel ns))
    (hp : 2 ≤ p.length) (hd : ns.any isDeclNode = true) :
    visit roots p =
      prune (removeAt (roots ++
        [Node.rule i (joinComma (buildFlattenedSelectors (chainAt roots p))) ns]) p)
        p.dropLast := by
  rw [visit, h]
  show (if 2 ≤ p.length ∧ ns.any isDeclNode = true then
      prune (removeAt (roots ++
        [Node.rule i (joinComma (buildFlattenedSelectors (chainAt roots p))) ns]) p)
        p.dropLast
    else prune roots p.dropLast) = _
  rw [if_pos ⟨hp, hd⟩]

/-! ## Claim theorems: single visit -/

/-- C6: a visited rule is skipped, leaving the whole tree unchanged, whenever
its parent is the root (path length 1) or it has no declaration children; in
particular a root-level rule with only declarations survives in place with
identical selector text. -/
theorem visit_skip (roots : List Node) (p : List Nat) (i : Nat) (sel : String)
    (ns : List Node) (h : getAt roots p = some (Node.rule i sel ns))
    (hskip : p.length = 1 ∨ ns.any isDeclNode = false) :
    visit roots p = roots := by
  rw [visit, h]
  show (if 2 ≤ p.length ∧ ns.any isDeclNode = true then
      prune (removeAt (roots ++
        [Node.rule i (joinComma (buildFlattenedSelectors (chainAt roots p))) ns]) p)
        p.dropLast
    else prune roots p.dropLast) = roots
  have hcond : ¬ (2 ≤ p.length ∧ ns.any isDeclNode = true) := by
    rcases hskip with h1 | h2
    · rintro ⟨ha, -⟩; omega
    · rintro ⟨-, hb⟩; rw [h2] at hb; exact Bool.noConfusion hb
  rw [if_neg hcond]
  have hpne : p ≠ [] := by
    intro he
    rw [he, getAt] at h
    exact absurd h (by simp)
  rcases Nat.lt_or_ge p.length 2 with hlen | hlen
  · cases p with
    | nil => exact absurd rfl hpne
    | cons a l =>
      cases l with
      | nil => exact prune_nil roots
      | cons b l2 => simp at hlen; omega
  · obtain ⟨q, k, rfl⟩ : ∃ q k, p = q ++ [k] :=
      ⟨p.dropLast, p.getLast hpne, (List.dropLast_append_getLast hpne).symm⟩
    have hq : q ≠ [] := by
      intro he
      subst he
      simp at hlen
    obtain ⟨par, hpar, hkid⟩ := getAt_snoc_parent h hq
    rw [List.dropLast_concat]
    refine prune_stop hpar ?_ hq
    intro s d he
    subst he
    rw [show kidsOf (Node.rule d s []) = [] from rfl] at hkid
    simp at hkid

/-- C6 witness: a root-level rule containing only a declaration is left
byte-identical by its visit. -/
theorem visit_skip_witness :
    getAt [Node.rule 0 ".a" [Node.decl 1 "color" "red"]] [0] =
      some (Node.rule 0 ".a" [Node.decl 1 "color" "red"]) ∧
    (([0] : List Nat).length = 1 ∨
      ([Node.decl 1 "color" "red"] : List Node).any isDeclNode = false) ∧
    visit [Node.rule 0 ".a" [Node.decl 1 "color" "red"]] [0] =
      [Node.rule 0 ".a" [Node.decl 1 "color" "red"]] :=
  ⟨rfl, Or.inl rfl,
    visit_skip [Node.rule 0 ".a" [Node.decl 1 "color" "red"]] [0] 0 ".a"
      [Node.decl 1 "color" "red"] rfl (Or.inl rfl)⟩

/-- C4: visiting a rule with a declaration child whose parent is not the root
(path `q ++ [k]` with `q` nonempty) appends to the root, as last child, a
duplicate of the rule whose selector is the comma-joined flattened selector
list and whose children are the rule's original children unchanged; and the
original rule is spliced out of its parent (stated for a parent that keeps at
least one other child, so the parent itself survives pruning in place). -/
theorem visit_promotes (roots : List Node) (q : List Nat) (k : Nat) (i : Nat)
    (sel : String) (ns : List Node)
    (h : getAt roots (q ++ [k]) = some (Node.rule i sel ns))
    (hq : q ≠ []) (hd : ns.any isDeclNode = true) :
    (visit roots (q ++ [k])).getLast? =
      some (Node.rule i
        (joinComma (buildFlattenedSelectors (chainAt roots (q ++ [k])))) ns) ∧
    (∀ par, getAt roots q = some par → 2 ≤ (kidsOf par).length →
      getAt (visit roots (q ++ [k])) q =
        some (withKids par ((kidsOf par).eraseIdx k))) := by
  have hlen2 : 2 ≤ (q ++ [k]).length := by
    cases q with
    | nil => exact absurd rfl hq
    | cons a l => simp
  obtain ⟨j0, q', rfl⟩ : ∃ j0 q', q = j0 :: q' := by
    cases q with
    | nil => exact absurd rfl hq
    | cons a l => exact ⟨a, l, rfl⟩
  have hp : (j0 :: q') ++ [k] = j0 :: (q' ++ [k]) := rfl
  have hj0lt : j0 < roots.length := by
    rw [hp] at h
    exact getAt_head_lt h
  rw [visit_promote_eq roots _ i sel ns h hlen2 hd, List.dropLast_concat]
  set clone := Node.rule i
    (joinComma (buildFlattenedSelectors (chainAt roots ((j0 :: q') ++ [k])))) ns with hclone
  set t1 := roots ++ [clone] with ht1
  have hget1 : getAt t1 ((j0 :: q') ++ [k]) = some (Node.rule i sel ns) := by
    rw [hp] at h ⊢
    rw [ht1, getAt_append_left [clone] j0 (q' ++ [k]) hj0lt]
    exact h
  obtain ⟨m0, hm0⟩ : ∃ m0, t1[j0]? = some m0 := by
    cases hx : t1[j0]? with
    | none =>
      rw [hp, getAt_cons_ne _ _ (by simp), hx] at hget1
      simp at hget1
    | some m => exact ⟨m, rfl⟩
  have ht2eq : removeAt t1 ((j0 :: q') ++ [k]) =
      t1.set j0 (withKids m0 (removeAt (kidsOf m0) (q' ++ [k]))) := by
    rw [hp]
    exact removeAt_deep (by simp) hm0
  have ht1len : t1.length = roots.length + 1 := by
    rw [ht1, List.length_append, List.length_cons, List.length_nil]
  have ht2last : (removeAt t1 ((j0 :: q') ++ [k])).getLast? = some clone := by
    rw [ht2eq, set_getLast _ (by omega), ht1, List.getLast?_concat]
  constructor
  · obtain ⟨h1, -⟩ := prune_getLast (t := removeAt t1 ((j0 :: q') ++ [k]))
      (q := j0 :: q') (j := j0) rfl (by rw [ht2eq, List.length_set]; omega)
    rw [h1, ht2last]
  · intro par hpar hplen
    obtain ⟨par', hpar', hkid'⟩ := getAt_snoc_parent h hq
    rw [hpar] at hpar'
    obtain rfl : par = par' := by injection hpar'
    have hpart1 : getAt t1 (j0 :: q') = some par := by
      rw [ht1, getAt_append_left [clone] j0 q' hj0lt]
      exact hpar
    have hrem := getAt_removeAt_snoc (j0 :: q') t1 par k (Node.rule i sel ns)
      hpart1 hkid'
    have hklt : k < (kidsOf par).length := (List.getElem?_eq_some_iff.mp hkid').1
    have hstop : prune (removeAt t1 ((j0 :: q') ++ [k])) (j0 :: q') =
        removeAt t1 ((j0 :: q') ++ [k]) := by
      refine prune_stop hrem ?_ (by simp)
      intro s d he
      have hkids : kidsOf (withKids par ((kidsOf par).eraseIdx k)) =
          (kidsOf par).eraseIdx k := by
        refine kidsOf_withKids ?_ _
        cases par with
        | decl =>
          rw [show kidsOf (Node.decl _ _ _) = [] from rfl] at hkid'
          simp at hkid'
        | rule => rfl
        | other => rfl
      rw [he] at hkids
      have : ((kidsOf par).eraseIdx k).length = (kidsOf par).length - 1 := by
        rw [List.length_eraseIdx, if_pos hklt]
      rw [show kidsOf (Node.rule d s []) = [] from rfl] at hkids
      rw [← hkids] at this
      simp at this
      omega
    rw [hstop]
    exact hrem

/-- C4 witness: promoting `&:hover` out of `.a`, whose parent keeps another
child. -/
theorem visit_promotes_witness :
    getAt [Node.rule 0 ".a" [Node.rule 1 "&:hover" [Node.decl 2 "color" "red"],
        Node.decl 3 "x" "y"]] ([0] ++ [0]) =
      some (Node.rule 1 "&:hover" [Node.decl 2 "color" "red"]) ∧
    ([0] : List Nat) ≠ [] ∧
    ([Node.decl 2 "color" "red"] : List Node).any isDeclNode = true ∧
    ((visit [Node.rule 0 ".a" [Node.rule 1 "&:hover" [Node.decl 2 "color" "red"],
        Node.decl 3 "x" "y"]] ([0] ++ [0])).getLast? =
      some (Node.rule 1
        (joinComma (buildFlattenedSelectors (chainAt
          [Node.rule 0 ".a" [Node.rule 1 "&:hover" [Node.decl 2 "color" "red"],
            Node.decl 3 "x" "y"]] ([0] ++ [0]))))
        [Node.decl 2 "color" "red"]) ∧
    (∀ par, getAt [Node.rule 0 ".a" [Node.rule 1 "&:hover" [Node.decl 2 "color" "red"],
        Node.decl 3 "x" "y"]] [0] = some par → 2 ≤ (kidsOf par).length →
      getAt (visit [Node.rule 0 ".a" [Node.rule 1 "&:hover" [Node.decl 2 "color" "red"],
        Node.decl 3 "x" "y"]] ([0] ++ [0])) [0] =
        some (withKids par ((kidsOf par).eraseIdx 0)))) :=
  ⟨rfl, by simp, rfl,
    visit_promotes [Node.rule 0 ".a" [Node.rule 1 "&:hover" [Node.decl 2 "color" "red"],
      Node.decl 3 "x" "y"]] [0] 0 1 "&:hover" [Node.decl 2 "color" "red"] rfl
      (by simp) rfl⟩

/-- C10: the pruning walk deletes a root-level rule that the promotion
emptied: when a root-level rule's only child is a promoted rule, the visit
removes the emptied shell from the root as well, leaving only the promoted
duplicate; the stopping condition never tests whether the parent is the
root. -/
theorem visit_prunes_root_shell (roots : List Node) (j rid cid : Nat)
    (sa sb : String) (ns2 : List Node)
    (h : getAt roots [j] = some (Node.rule rid sa [Node.rule cid sb ns2]))
    (hd : ns2.any isDeclNode = true) :
    visit roots [j, 0] =
      roots.eraseIdx j ++
        [Node.rule cid (joinComma (buildFlattenedSelectors (chainAt roots [j, 0]))) ns2] := by
  have hj : roots[j]? = some (Node.rule rid sa [Node.rule cid sb ns2]) := h
  have hjlt : j < roots.length := (List.getElem?_eq_some_iff.mp hj).1
  have hchild : getAt roots [j, 0] = some (Node.rule cid sb ns2) := by
    rw [getAt_cons_ne _ _ (by simp), hj]
    rfl
  rw [visit_promote_eq roots [j, 0] cid sb ns2 hchild (by simp) hd]
  set clone := Node.rule cid
    (joinComma (buildFlattenedSelectors (chainAt roots [j, 0]))) ns2 with hclone
  set t1 := roots ++ [clone] with ht1
  have hj1 : t1[j]? = some (Node.rule rid sa [Node.rule cid sb ns2]) := by
    rw [ht1, List.getElem?_append_left hjlt]
    exact hj
  have hrem : removeAt t1 [j, 0] = t1.set j (Node.rule rid sa []) := by
    rw [show ([j, 0] : List Nat) = j :: [0] from rfl, removeAt_deep (by simp) hj1]
    rfl
  have hdl : ([j, 0] : List Nat).dropLast = [j] := rfl
  rw [hdl, hrem]
  have hjlt1 : j < t1.length := by
    rw [ht1, List.length_append]
    simp
    omega
  have hg : getAt (t1.set j (Node.rule rid sa [])) [j] = some (Node.rule rid sa []) := by
    show (t1.set j (Node.rule rid sa []))[j]? = _
    rw [List.getElem?_set_self hjlt1]
  rw [prune_eq _ (by simp), hg]
  show prune (removeAt (t1.set j (Node.rule rid sa [])) [j]) [] =
    roots.eraseIdx j ++ [clone]
  rw [prune_nil, removeAt_single, ← List.eraseIdx_eq_take_drop_succ, eraseIdx_set_same,
    ht1, List.eraseIdx_append_of_lt_length hjlt]

/-! Helper lemmas for the pruning-chain claim -/

theorem getAt_nil_path : ∀ p : List Nat, getAt ([] : List Node) p = none
  | [] => rfl
  | [_] => rfl
  | _ :: _ :: _ => rfl

theorem nid_mem_idsN (n : Node) : nid n ∈ idsN n := by
  cases n <;> simp [nid, idsN]

theorem getAt_nid_mem {t : List Node} {p : List Nat} {n : Node}
    (h : getAt t p = some n) : nid n ∈ idsL t := by
  have hc := ids_count_removeAt p t n h (nid n)
  have h1 : 1 ≤ (idsN n).count (nid n) := List.count_pos_iff.mpr (nid_mem_idsN n)
  exact List.count_pos_iff.mp (by omega)

theorem nodup_removeAt {t : List Node} {p : List Nat} {n : Node}
    (h : getAt t p = some n) (hnd : (idsL t).Nodup) :
    (idsL (removeAt t p)).Nodup := by
  rw [List.nodup_iff_count_le_one] at hnd ⊢
  intro x
  have hc := ids_count_removeAt p t n h x
  have := hnd x
  omega

/-- Along a valid path, every strictly shorter prefix addresses a node with
nonempty children. -/
theorem getAt_prefix_kids :
    ∀ (q1 : List Nat) (t : List Node) (q2 : List Nat) (n : Node),
      getAt t (q1 ++ q2) = some n → q1 ≠ [] →
      ∃ m, getAt t q1 = some m ∧ (q2 ≠ [] → kidsOf m ≠ []) := by
  intro q1
  induction q1 with
  | nil => intro t q2 n _ hq; exact absurd rfl hq
  | cons j1 q1' ih =>
    intro t q2 n h _
    cases hj : t[j1]? with
    | none =>
      exfalso
      rw [List.cons_append, getAt_cons, hj] at h
      simp at h
    | some m =>
      cases q1' with
      | nil =>
        refine ⟨m, hj, fun hq2 hkids => ?_⟩
        rw [List.cons_append, List.nil_append, getAt_cons_ne t j1 hq2, hj] at h
        simp only [Option.some_bind] at h
        rw [hkids, getAt_nil_path] at h
        exact Option.noConfusion h
      | cons a b =>
        rw [List.cons_append, getAt_cons_ne t j1 (by simp), hj] at h
        simp only [Option.some_bind] at h
        obtain ⟨m2, hm2, hk2⟩ := ih (kidsOf m) q2 n h (by simp)
        refine ⟨m2, ?_, hk2⟩
        rw [getAt_cons_ne t j1 (by simp), hj]
        simpa using hm2

/-- Removing the node at `q` keeps every proper nonempty prefix of `q`
addressed at a node with the same identity (only child lists change). -/
theorem getAt_removeAt_prefix :
    ∀ (q : List Nat) (t : List Node) (n : Node),
      getAt t q = some n →
      ∀ j, 1 ≤ j → j < q.length →
      ∃ m ks, getAt t (q.take j) = some m ∧
        getAt (removeAt t q) (q.take j) = some (withKids m ks) := by
  intro q
  induction q with
  | nil => intro t n h; rw [getAt] at h; exact absurd h (by simp)
  | cons j1 rest ih =>
    intro t n h j hj1 hjlen
    have hrest : rest ≠ [] := by
      intro he
      rw [he] at hjlen
      simp at hjlen
      omega
    rw [getAt_cons_ne t j1 hrest] at h
    cases hj : t[j1]? with
    | none => rw [hj] at h; simp at h
    | some m =>
      rw [hj] at h
      simp only [Option.some_bind] at h
      have hm : isDeclNode m = false := by
        cases m with
        | decl =>
          rw [show kidsOf (Node.decl _ _ _) = [] from rfl, getAt_nil_path] at h
          exact Option.noConfusion h
        | rule => rfl
        | other => rfl
      have hjlt : j1 < t.length := (List.getElem?_eq_some_iff.mp hj).1
      have hrem : removeAt t (j1 :: rest) =
          t.set j1 (withKids m (removeAt (kidsOf m) rest)) := removeAt_deep hrest hj
      cases j with
      | zero => omega
      | succ j' =>
        cases j' with
        | zero =>
          refine ⟨m, removeAt (kidsOf m) rest, hj, ?_⟩
          rw [hrem]
          show (t.set j1 (withKids m (removeAt (kidsOf m) rest)))[j1]? = _
          rw [List.getElem?_set_self (by simpa using hjlt)]
        | succ j'' =>
          have hjlen' : j'' + 1 < rest.length := by
            simp at hjlen
            omega
          have htake : ∀ xs : List Nat,
              (j1 :: xs).take (j'' + 1 + 1) = j1 :: xs.take (j'' + 1) :=
            fun xs => rfl
          obtain ⟨m2, ks2, hm2, hm2'⟩ := ih (kidsOf m) n h (j'' + 1) (by omega) hjlen'
          have htne : rest.take (j'' + 1) ≠ [] := by
            intro he
            have h0 : (rest.take (j'' + 1)).length = 0 := by rw [he]; rfl
            rw [List.length_take] at h0
            omega
          refine ⟨m2, ks2, ?_, ?_⟩
          · rw [htake, getAt_cons_ne t j1 htne, hj]
            simpa using hm2
          · rw [hrem, htake, getAt_cons_ne _ j1 htne,
              List.getElem?_set_self (by simpa using hjlt)]
            simp only [Option.some_bind]
            rw [kidsOf_withKids hm]
            exact hm2'

theorem take_dropLast {q : List Nat} {j : Nat} (h : j ≤ q.length - 1) :
    q.dropLast.take j = q.take j := by
  rw [List.dropLast_eq_take, List.take_take, Nat.min_eq_left h]

/-- Core induction for the pruning-chain claim: after the upward walk from
`q`, no surviving node on the chain of prefixes of `q` (identified by the
identity it had before the walk) is an empty rule. -/
theorem prune_chain_aux :
    ∀ (L : Nat) (q : List Nat) (t : List Node) (P0 : Node),
      q.length ≤ L → getAt t q = some P0 → (idsL t).Nodup →
      ∀ j d s ns', 1 ≤ j → j ≤ q.length →
        getAt (prune t q) (q.take j) = some (Node.rule d s ns') →
        (∃ n0, getAt t (q.take j) = some n0 ∧ nid n0 = d) →
        ns' ≠ [] := by
  intro L
  induction L with
  | zero =>
    intro q t P0 hL h0 hnd j d s ns' hj1 hjq hres horig
    have hq : q = [] := List.eq_nil_of_length_eq_zero (by omega)
    subst hq
    simp at hjq
    omega
  | succ L ih =>
    intro q t P0 hL h0 hnd j d s ns' hj1 hjq hres horig
    have hqne : q ≠ [] := by
      intro he
      subst he
      simp at hjq
      omega
    have hstopped : (∀ s2 d2, P0 ≠ Node.rule d2 s2 []) → ns' ≠ [] := by
      intro hP0
      have hpr : prune t q = t := prune_stop h0 hP0 hqne
      rw [hpr] at hres
      obtain ⟨n0, hn0, hnid⟩ := horig
      rw [hres] at hn0
      obtain rfl : Node.rule d s ns' = n0 := by injection hn0
      rcases Nat.lt_or_ge j q.length with hlt | hge
      · have hsplit : q.take j ++ q.drop j = q := List.take_append_drop j q
        have h0' : getAt t (q.take j ++ q.drop j) = some P0 := by rw [hsplit]; exact h0
        have htne0 : q.take j ≠ [] := by
          intro he
          have h0l : (q.take j).length = 0 := by rw [he]; rfl
          rw [List.length_take] at h0l
          omega
        obtain ⟨m, hm, hk⟩ := getAt_prefix_kids (q.take j) t (q.drop j) P0 h0' htne0
        rw [hres] at hm
        obtain rfl : Node.rule d s ns' = m := by injection hm
        have := hk (by
          intro he
          have h0l : (q.drop j).length = 0 := by rw [he]; rfl
          rw [List.length_drop] at h0l
          omega)
        simpa [kidsOf] using this
      · have hj : j = q.length := by omega
        rw [hj, List.take_length] at hres
        rw [hres] at h0
        obtain rfl : Node.rule d s ns' = P0 := by injection h0
        intro he
        exact hP0 s d (by rw [he])
    cases P0 with
    | decl i2 pr v => exact hstopped (fun s2 d2 he => Node.noConfusion he)
    | other i2 ks => exact hstopped (fun s2 d2 he => Node.noConfusion he)
    | rule dp sp ks =>
      cases ks with
      | cons k1 k2 =>
        refine hstopped (fun s2 d2 he => ?_)
        injection he with h1 h2 h3
        exact List.noConfusion h3
      | nil =>
        have hprune : prune t q = prune (removeAt t q) q.dropLast := by
          rw [prune_eq t hqne, h0]
        rw [hprune] at hres
        have hnd' : (idsL (removeAt t q)).Nodup := nodup_removeAt h0 hnd
        have hcount0 : (idsL (removeAt t q)).count dp = 0 := by
          have hc := ids_count_removeAt q t (Node.rule dp sp []) h0 dp
          have hle := List.nodup_iff_count_le_one.mp hnd dp
          have hone : (idsN (Node.rule dp sp [])).count dp = 1 := by
            simp [idsN, idsL]
          omega
        rcases Nat.lt_or_ge j q.length with hlt | hge
        · have hq2 : 2 ≤ q.length := by omega
          obtain ⟨qd, klast, hsnoc⟩ : ∃ qd klast, q = qd ++ [klast] :=
            ⟨q.dropLast, q.getLast hqne, (List.dropLast_append_getLast hqne).symm⟩
          have hqd : qd = q.dropLast := by
            rw [hsnoc, List.dropLast_concat]
          have hqdne : q.dropLast ≠ [] := by
            intro he
            have := congrArg List.length he
            rw [List.length_dropLast] at this
            simp at this
            omega
          obtain ⟨par, hpar, hkid⟩ := getAt_snoc_parent (n := Node.rule dp sp [])
            (by rw [← hsnoc]; exact h0) (by rw [hqd]; exact hqdne)
          have hrempar := getAt_removeAt_snoc qd t par klast (Node.rule dp sp [])
            hpar hkid
          rw [← hsnoc, hqd] at hrempar
          obtain ⟨m, ks0, hm, hm'⟩ := getAt_removeAt_prefix q t (Node.rule dp sp [])
            h0 j hj1 hlt
          obtain ⟨n0, hn0, hnid⟩ := horig
          rw [hm] at hn0
          have hmn : m = n0 := Option.some.inj hn0
          refine ih q.dropLast (removeAt t q) (withKids par ((kidsOf par).eraseIdx klast))
            (by rw [List.length_dropLast]; omega) hrempar hnd' j d s ns' hj1
            (by rw [List.length_dropLast]; omega) ?_ ?_
          · rw [take_dropLast (by omega)]
            exact hres
          · refine ⟨withKids m ks0, ?_, ?_⟩
            · rw [take_dropLast (by omega)]
              exact hm'
            · rw [nid_withKids, hmn]
              exact hnid
        · have hj : j = q.length := by omega
          rw [hj, List.take_length] at hres horig
          obtain ⟨n0, hn0, hnid⟩ := horig
          rw [h0] at hn0
          have hmn : Node.rule dp sp [] = n0 := Option.some.inj hn0
          have hd : d = dp := by
            rw [← hnid, ← hmn]
            rfl
          subst hd
          have hmem : d ∈ idsL (prune (removeAt t q) q.dropLast) := by
            have := getAt_nid_mem hres
            simpa [nid] using this
          have hle := ids_count_prune_le (removeAt t q) q.dropLast d
          have hpos := List.count_pos_iff.mpr hmem
          omega

/-- C5: after the removal of a visited rule, the upward walk from its former
parent `P` (at path `q`) removes every ancestor rule that now has zero
children and stops at the first ancestor that still has a child, is not a
rule, or is the root; consequently no node on the chain of prefixes of `q`
survives the visit as an empty rule (survivors are identified by the node
identity they had before the walk, identities being distinct). -/
theorem prune_no_empty_ancestor (roots : List Node) (q : List Nat) (P0 : Node)
    (h0 : getAt roots q = some P0) (hnd : (idsL roots).Nodup) :
    ((∀ d s, P0 ≠ Node.rule d s []) → prune roots q = roots) ∧
    (∀ j d s ns', 1 ≤ j → j ≤ q.length →
      getAt (prune roots q) (q.take j) = some (Node.rule d s ns') →
      (∃ n0, getAt roots (q.take j) = some n0 ∧ nid n0 = d) →
      ns' ≠ []) := by
  constructor
  · intro hP0
    by_cases hq : q = []
    · subst hq
      exact prune_nil roots
    · exact prune_stop h0 (fun s2 d2 => hP0 d2 s2) hq
  · exact prune_chain_aux q.length q roots P0 (Nat.le_refl _) h0 hnd

/-- C5 witness: pruning from the emptied `.b` inside `.a` removes both empty
shells; no chain node survives as an empty rule. -/
theorem prune_no_empty_ancestor_witness :
    getAt [Node.rule 0 ".a" [Node.rule 1 ".b" []]] [0, 0] =
      some (Node.rule 1 ".b" []) ∧
    (idsL [Node.rule 0 ".a" [Node.rule 1 ".b" []]]).Nodup ∧
    (((∀ d s, Node.rule 1 ".b" [] ≠ Node.rule d s []) →
      prune [Node.rule 0 ".a" [Node.rule 1 ".b" []]] [0, 0] =
        [Node.rule 0 ".a" [Node.rule 1 ".b" []]]) ∧
    (∀ j d s ns', 1 ≤ j → j ≤ ([0, 0] : List Nat).length →
      getAt (prune [Node.rule 0 ".a" [Node.rule 1 ".b" []]] [0, 0])
        (([0, 0] : List Nat).take j) = some (Node.rule d s ns') →
      (∃ n0, getAt [Node.rule 0 ".a" [Node.rule 1 ".b" []]]
        (([0, 0] : List Nat).take j) = some n0 ∧ nid n0 = d) →
      ns' ≠ [])) :=
  ⟨rfl, by simp [idsL], prune_no_empty_ancestor
    [Node.rule 0 ".a" [Node.rule 1 ".b" []]] [0, 0] (Node.rule 1 ".b" []) rfl
    (by simp [idsL])⟩

/-- C10 witness: `.a { .b { x:y } }` at the root: the visit of `.b` leaves
only the promoted `.a .b` rule; the emptied `.a` shell at root level is
deleted. -/
theorem visit_prunes_root_shell_witness :
    getAt [Node.rule 5 ".a" [Node.rule 6 ".b" [Node.decl 7 "x" "y"]]] [0] =
      some (Node.rule 5 ".a" [Node.rule 6 ".b" [Node.decl 7 "x" "y"]]) ∧
    ([Node.decl 7 "x" "y"] : List Node).any isDeclNode = true ∧
    visit [Node.rule 5 ".a" [Node.rule 6 ".b" [Node.decl 7 "x" "y"]]] [0, 0] =
      ([Node.rule 5 ".a" [Node.rule 6 ".b" [Node.decl 7 "x" "y"]]] : List Node).eraseIdx 0 ++
        [Node.rule 6 (joinComma (buildFlattenedSelectors (chainAt
          [Node.rule 5 ".a" [Node.rule 6 ".b" [Node.decl 7 "x" "y"]]] [0, 0])))
          [Node.decl 7 "x" "y"]] :=
  ⟨rfl, rfl,
    visit_prunes_root_shell [Node.rule 5 ".a" [Node.rule 6 ".b" [Node.decl 7 "x" "y"]]]
      0 5 6 ".a" ".b" [Node.decl 7 "x" "y"] rfl rfl⟩

/-! ## Traversal machinery: lookup by identity -/

theorem shiftPath_none {o : Option (List Nat)} (h : shiftPath o = none) : o = none := by
  cases o with
  | none => rfl
  | some p =>
    cases p with
    | nil => rw [shiftPath] at h; exact Option.noConfusion h
    | cons j q => rw [shiftPath] at h; exact Option.noConfusion h

theorem findIn_sound (i : Nat) :
    ∀ (t : List Node) (p : List Nat), findIn i t = some p →
      ∃ n, getAt t p = some n ∧ nid n = i := by
  intro t
  induction t using findIn.induct i with
  | case1 => intro p h; rw [findIn] at h; exact Option.noConfusion h
  | case2 pr v tl =>
    intro p h
    rw [findIn, if_pos rfl] at h
    obtain rfl : [0] = p := by injection h
    exact ⟨Node.decl i pr v, by simp [getAt], rfl⟩
  | case3 d pr v tl hd iht =>
    intro p h
    rw [findIn, if_neg hd] at h
    cases hft : findIn i tl with
    | none => rw [hft] at h; rw [shiftPath] at h; exact Option.noConfusion h
    | some pt =>
      rw [hft] at h
      obtain ⟨m, hm, hmn⟩ := iht pt hft
      cases pt with
      | nil => rw [getAt] at hm; exact absurd hm (by simp)
      | cons j q =>
        rw [shiftPath] at h
        obtain rfl : (j + 1) :: q = p := by injection h
        exact ⟨m, by rw [getAt_shift]; exact hm, hmn⟩
  | case4 sel ns tl =>
    intro p h
    rw [findIn, if_pos rfl] at h
    obtain rfl : [0] = p := by injection h
    exact ⟨Node.rule i sel ns, by simp [getAt], rfl⟩
  | case5 d sel ns tl hd pk hk ihns =>
    intro p h
    rw [findIn, if_neg hd, hk] at h
    obtain rfl : 0 :: pk = p := by injection h
    obtain ⟨m, hm, hmn⟩ := ihns pk hk
    have hpk : pk ≠ [] := by
      intro he
      rw [he, getAt] at hm
      exact absurd hm (by simp)
    refine ⟨m, ?_, hmn⟩
    rw [getAt_zero, if_neg hpk]
    exact hm
  | case6 d sel ns tl hd hk ihns iht =>
    intro p h
    rw [findIn, if_neg hd, hk] at h
    cases hft : findIn i tl with
    | none => rw [hft] at h; rw [shiftPath] at h; exact Option.noConfusion h
    | some pt =>
      rw [hft] at h
      obtain ⟨m, hm, hmn⟩ := iht pt hft
      cases pt with
      | nil => rw [getAt] at hm; exact absurd hm (by simp)
      | cons j q =>
        rw [shiftPath] at h
        obtain rfl : (j + 1) :: q = p := by injection h
        exact ⟨m, by rw [getAt_shift]; exact hm, hmn⟩
  | case7 ns tl =>
    intro p h
    rw [findIn, if_pos rfl] at h
    obtain rfl : [0] = p := by injection h
    exact ⟨Node.other i ns, by simp [getAt], rfl⟩
  | case8 d ns tl hd pk hk ihns =>
    intro p h
    rw [findIn, if_neg hd, hk] at h
    obtain rfl : 0 :: pk = p := by injection h
    obtain ⟨m, hm, hmn⟩ := ihns pk hk
    have hpk : pk ≠ [] := by
      intro he
      rw [he, getAt] at hm
      exact absurd hm (by simp)
    refine ⟨m, ?_, hmn⟩
    rw [getAt_zero, if_neg hpk]
    exact hm
  | case9 d ns tl hd hk ihns iht =>
    intro p h
    rw [findIn, if_neg hd, hk] at h
    cases hft : findIn i tl with
    | none => rw [hft] at h; rw [shiftPath] at h; exact Option.noConfusion h
    | some pt =>
      rw [hft] at h
      obtain ⟨m, hm, hmn⟩ := iht pt hft
      cases pt with
      | nil => rw [getAt] at hm; exact absurd hm (by simp)
      | cons j q =>
        rw [shiftPath] at h
        obtain rfl : (j + 1) :: q = p := by injection h
        exact ⟨m, by rw [getAt_shift]; exact hm, hmn⟩

theorem findIn_none (i : Nat) :
    ∀ t : List Node, findIn i t = none → (idsL t).count i = 0 := by
  intro t
  induction t using findIn.induct i with
  | case1 => intro _; simp [idsL]
  | case2 pr v tl =>
    intro h
    rw [findIn, if_pos rfl] at h
    exact Option.noConfusion h
  | case3 d pr v tl hd iht =>
    intro h
    rw [findIn, if_neg hd] at h
    have := iht (shiftPath_none h)
    rw [idsL_cons]
    simp [idsN, List.count_append, List.count_cons, this, hd]
  | case4 sel ns tl =>
    intro h
    rw [findIn, if_pos rfl] at h
    exact Option.noConfusion h
  | case5 d sel ns tl hd pk hk ihns =>
    intro h
    rw [findIn, if_neg hd, hk] at h
    exact Option.noConfusion h
  | case6 d sel ns tl hd hk ihns iht =>
    intro h
    rw [findIn, if_neg hd, hk] at h
    have h1 := ihns hk
    have h2 := iht (shiftPath_none h)
    rw [idsL_cons]
    simp [idsN, List.count_append, List.count_cons, h1, h2, hd]
  | case7 ns tl =>
    intro h
    rw [findIn, if_pos rfl] at h
    exact Option.noConfusion h
  | case8 d ns tl hd pk hk ihns =>
    intro h
    rw [findIn, if_neg hd, hk] at h
    exact Option.noConfusion h
  | case9 d ns tl hd hk ihns iht =>
    intro h
    rw [findIn, if_neg hd, hk] at h
    have h1 := ihns hk
    have h2 := iht (shiftPath_none h)
    rw [idsL_cons]
    simp [idsN, List.count_append, List.count_cons, h1, h2, hd]

theorem mem_findIn {i : Nat} {t : List Node} (h : i ∈ idsL t) :
    ∃ p, findIn i t = some p := by
  cases hf : findIn i t with
  | none =>
    exact absurd (List.count_pos_iff.mpr h) (by rw [findIn_none i t hf]; omega)
  | some p => exact ⟨p, rfl⟩

/-! Census comparison and witness lemmas -/

theorem ndr_count_le_ids (x : Nat) :
    ∀ (f : Bool) (t : List Node), (ndrL f t).count x ≤ (idsL t).count x := by
  intro f t
  induction f, t using ndrL.induct with
  | case1 f => simp [ndrL, idsL]
  | case2 f d pr v tl ih =>
    rw [ndrL, idsL]
    simp only [List.count_cons]
    omega
  | case3 f d sel ns tl ihns iht =>
    rw [ndrL, idsL_cons]
    have hif : (if f && ns.any isDeclNode then [d] else []).count x ≤
        List.count x [d] := by
      split
      · exact Nat.le_refl _
      · simp
    simp only [List.count_append, List.count_cons, List.count_nil, idsN] at hif ⊢
    omega
  | case4 f d ns tl ihns iht =>
    rw [ndrL, idsL_cons]
    simp only [List.count_append, List.count_cons, List.count_nil, idsN]
    omega

theorem mem_ndr_ruleIds (x : Nat) :
    ∀ (f : Bool) (t : List Node), x ∈ ndrL f t → x ∈ ruleIdsL t := by
  intro f t
  induction f, t using ndrL.induct with
  | case1 f => intro h; rw [ndrL] at h; exact absurd h (by simp)
  | case2 f d pr v tl ih =>
    intro h
    rw [ndrL] at h
    rw [ruleIdsL]
    exact ih h
  | case3 f d sel ns tl ihns iht =>
    intro h
    rw [ndrL] at h
    rw [ruleIdsL]
    rcases List.mem_append.mp h with h1 | h2
    · rcases List.mem_append.mp h1 with h3 | h4
      · have : x = d := by
          by_cases hc : f && ns.any isDeclNode
          · rw [if_pos hc] at h3; simpa using h3
          · rw [if_neg hc] at h3; simp at h3
        subst this
        simp
      · exact List.mem_append.mpr (Or.inl (List.mem_cons_of_mem _ (ihns h4)))
    · exact List.mem_append.mpr (Or.inr (iht h2))
  | case4 f d ns tl ihns iht =>
    intro h
    rw [ndrL] at h
    rw [ruleIdsL]
    rcases List.mem_append.mp h with h1 | h2
    · exact List.mem_append.mpr (Or.inl (ihns h1))
    · exact List.mem_append.mpr (Or.inr (iht h2))

theorem ruleIds_count_le (x : Nat) :
    ∀ t : List Node, (ruleIdsL t).count x ≤ (idsL t).count x := by
  intro t
  induction t using ruleIdsL.induct with
  | case1 => simp [ruleIdsL, idsL]
  | case2 d pr v tl ih =>
    rw [ruleIdsL, idsL]
    simp only [List.count_cons]
    omega
  | case3 d sel ns tl ihns iht =>
    rw [ruleIdsL, idsL_cons]
    simp only [List.count_append, List.count_cons, idsN]
    omega
  | case4 d ns tl ihns iht =>
    rw [ruleIdsL, idsL_cons]
    simp only [List.count_append, List.count_cons, idsN]
    omega

theorem flagAt_shift (f : Bool) (n : Node) (t : List Node) (j : Nat)
    (rest : List Nat) :
    flagAt f (n :: t) ((j + 1) :: rest) = flagAt f t (j :: rest) := by
  cases rest with
  | nil => rfl
  | cons a l =>
    show (match (n :: t)[j + 1]? with
      | some (Node.rule _ _ ks) => flagAt true ks (a :: l)
      | some (Node.other _ ks) => flagAt f ks (a :: l)
      | _ => f) =
      (match t[j]? with
      | some (Node.rule _ _ ks) => flagAt true ks (a :: l)
      | some (Node.other _ ks) => flagAt f ks (a :: l)
      | _ => f)
    rw [List.getElem?_cons_succ]

theorem flagAt_append (f : Bool) (a b : List Node) (j : Nat) (rest : List Nat)
    (hj : j < a.length) :
    flagAt f (a ++ b) (j :: rest) = flagAt f a (j :: rest) := by
  cases rest with
  | nil => rfl
  | cons x l =>
    show (match (a ++ b)[j]? with
      | some (Node.rule _ _ ks) => flagAt true ks (x :: l)
      | some (Node.other _ ks) => flagAt f ks (x :: l)
      | _ => f) =
      (match a[j]? with
      | some (Node.rule _ _ ks) => flagAt true ks (x :: l)
      | some (Node.other _ ks) => flagAt f ks (x :: l)
      | _ => f)
    rw [List.getElem?_append_left hj]

theorem flagAt_zero_rule (f : Bool) (d : Nat) (sel : String) (ks : List Node)
    (t : List Node) {rest : List Nat} (h : rest ≠ []) :
    flagAt f (Node.rule d sel ks :: t) (0 :: rest) = flagAt true ks rest := by
  cases rest with
  | nil => exact absurd rfl h
  | cons a l =>
    show (match (Node.rule d sel ks :: t)[0]? with
      | some (Node.rule _ _ ks2) => flagAt true ks2 (a :: l)
      | some (Node.other _ ks2) => flagAt f ks2 (a :: l)
      | _ => f) = flagAt true ks (a :: l)
    rw [List.getElem?_cons_zero]

theorem flagAt_zero_other (f : Bool) (d : Nat) (ks : List Node)
    (t : List Node) {rest : List Nat} (h : rest ≠ []) :
    flagAt f (Node.other d ks :: t) (0 :: rest) = flagAt f ks rest := by
  cases rest with
  | nil => exact absurd rfl h
  | cons a l =>
    show (match (Node.other d ks :: t)[0]? with
      | some (Node.rule _ _ ks2) => flagAt true ks2 (a :: l)
      | some (Node.other _ ks2) => flagAt f ks2 (a :: l)
      | _ => f) = flagAt f ks (a :: l)
    rw [List.getElem?_cons_zero]

theorem flagAt_false_len {t : List Node} {p : List Nat}
    (h : flagAt false t p = true) : 2 ≤ p.length := by
  cases p with
  | nil => rw [flagAt] at h; exact Bool.noConfusion h
  | cons j rest =>
    cases rest with
    | nil => rw [flagAt] at h; exact Bool.noConfusion h
    | cons a l => simp

/-- Every identity in the nested-declaration-rule census is witnessed by an
actual rule node with declaration children under a rule ancestor. -/
theorem mem_ndrL (x : Nat) :
    ∀ (f : Bool) (t : List Node), x ∈ ndrL f t →
      ∃ p sel ns, getAt t p = some (Node.rule x sel ns) ∧
        ns.any isDeclNode = true ∧ flagAt f t p = true := by
  intro f t
  induction f, t using ndrL.induct with
  | case1 f => intro h; rw [ndrL] at h; exact absurd h (by simp)
  | case2 f d pr v tl ih =>
    intro h
    rw [ndrL] at h
    obtain ⟨p, sel, ns, hg, ha, hf⟩ := ih h
    cases p with
    | nil => rw [getAt] at hg; exact absurd hg (by simp)
    | cons j rest =>
      exact ⟨(j + 1) :: rest, sel, ns, by rw [getAt_shift]; exact hg, ha,
        by rw [flagAt_shift]; exact hf⟩
  | case3 f d sel0 ns0 tl ihns iht =>
    intro h
    rw [ndrL] at h
    rcases List.mem_append.mp h with h1 | h2
    · rcases List.mem_append.mp h1 with h3 | h4
      · have hfa : f = true ∧ ns0.any isDeclNode = true ∧ x = d := by
          by_cases hc : f && ns0.any isDeclNode
          · rw [if_pos hc] at h3
            obtain ⟨hf1, ha1⟩ := (Bool.and_eq_true _ _).mp hc
            exact ⟨hf1, ha1, List.mem_singleton.mp h3⟩
          · rw [if_neg hc] at h3
            simp at h3
        obtain ⟨hf1, ha1, rfl⟩ := hfa
        subst hf1
        exact ⟨[0], sel0, ns0, by simp [getAt], ha1, rfl⟩
      · obtain ⟨p, sel, ns, hg, ha, hfl⟩ := ihns h4
        have hpne : p ≠ [] := by
          intro he
          rw [he, getAt] at hg
          exact absurd hg (by simp)
        refine ⟨0 :: p, sel, ns, ?_, ha, ?_⟩
        · rw [getAt_zero, if_neg hpne]
          exact hg
        · rw [flagAt_zero_rule f d sel0 ns0 tl hpne]
          exact hfl
    · obtain ⟨p, sel, ns, hg, ha, hfl⟩ := iht h2
      cases p with
      | nil => rw [getAt] at hg; exact absurd hg (by simp)
      | cons j rest =>
        exact ⟨(j + 1) :: rest, sel, ns, by rw [getAt_shift]; exact hg, ha,
          by rw [flagAt_shift]; exact hfl⟩
  | case4 f d ns0 tl ihns iht =>
    intro h
    rw [ndrL] at h
    rcases List.mem_append.mp h with h1 | h2
    · obtain ⟨p, sel, ns, hg, ha, hfl⟩ := ihns h1
      have hpne : p ≠ [] := by
        intro he
        rw [he, getAt] at hg
        exact absurd hg (by simp)
      refine ⟨0 :: p, sel, ns, ?_, ha, ?_⟩
      · rw [getAt_zero, if_neg hpne]
        exact hg
      · rw [flagAt_zero_other f d ns0 tl hpne]
        exact hfl
    · obtain ⟨p, sel, ns, hg, ha, hfl⟩ := iht h2
      cases p with
      | nil => rw [getAt] at hg; exact absurd hg (by simp)
      | cons j rest =>
        exact ⟨(j + 1) :: rest, sel, ns, by rw [getAt_shift]; exact hg, ha,
          by rw [flagAt_shift]; exact hfl⟩

/-! Distinct identities force distinct positions -/

theorem subtree_count_le {t : List Node} {p : List Nat} {n : Node}
    (h : getAt t p = some n) (x : Nat) : (idsN n).count x ≤ (idsL t).count x := by
  have := ids_count_removeAt p t n h x
  omega

theorem elem_pair_count {t : List Node} {j j' : Nat} {mj mj' : Node}
    (hjj : j < j') (hj : t[j]? = some mj) (hj' : t[j']? = some mj') (x : Nat) :
    (idsN mj).count x + (idsN mj').count x ≤ (idsL t).count x := by
  have hjlt : j < t.length := (List.getElem?_eq_some_iff.mp hj).1
  have hdecomp := list_eq_take_cons_drop hj
  have hdrop : (t.drop (j + 1))[j' - j - 1]? = some mj' := by
    rw [List.getElem?_drop]
    rw [show j + 1 + (j' - j - 1) = j' by omega]
    exact hj'
  have h2 : (idsN mj').count x ≤ (idsL (t.drop (j + 1))).count x := by
    have := ids_count_removeAt [j' - j - 1] (t.drop (j + 1)) mj' hdrop x
    omega
  conv_rhs => rw [hdecomp]
  rw [idsL_append, idsL_cons]
  simp only [List.count_append]
  omega

theorem getAt_elem_count {t : List Node} {j : Nat} {r : List Nat} {a mj : Node}
    (h : getAt t (j :: r) = some a) (hj : t[j]? = some mj) :
    1 ≤ (idsN mj).count (nid a) := by
  cases r with
  | nil =>
    have : mj = a := by
      rw [getAt] at h
      rw [hj] at h
      injection h
    subst this
    exact List.count_pos_iff.mpr (nid_mem_idsN _)
  | cons b l =>
    rw [getAt_cons_ne t j (by simp), hj] at h
    simp only [Option.some_bind] at h
    have hmj : isDeclNode mj = false := by
      cases mj with
      | decl =>
        rw [show kidsOf (Node.decl _ _ _) = [] from rfl, getAt_nil_path] at h
        exact Option.noConfusion h
      | rule => rfl
      | other => rfl
    have h1 : (idsN a).count (nid a) ≥ 1 := List.count_pos_iff.mpr (nid_mem_idsN a)
    have h2 := subtree_count_le h (nid a)
    rw [idsN_kids hmj]
    simp only [List.count_cons]
    omega

theorem distinct_count :
    ∀ (p : List Nat) (p' : List Nat) (t : List Node) (a b : Node),
      getAt t p = some a → getAt t p' = some b → nid a = nid b → p ≠ p' →
      2 ≤ (idsL t).count (nid a) := by
  intro p
  induction p with
  | nil => intro p' t a b h; rw [getAt] at h; exact absurd h (by simp)
  | cons j r ih =>
    intro p' t a b h h' hab hne
    cases p' with
    | nil => rw [getAt] at h'; exact absurd h' (by simp)
    | cons j' r' =>
      obtain ⟨mj, hmj⟩ : ∃ mj, t[j]? = some mj := by
        rw [getAt_cons] at h
        cases hx : t[j]? with
        | none => rw [hx] at h; simp at h
        | some m => exact ⟨m, rfl⟩
      obtain ⟨mj', hmj'⟩ : ∃ mj', t[j']? = some mj' := by
        rw [getAt_cons] at h'
        cases hx : t[j']? with
        | none => rw [hx] at h'; simp at h'
        | some m => exact ⟨m, rfl⟩
      rcases Nat.lt_trichotomy j j' with hjj | hjj | hjj
      · have e1 := getAt_elem_count h hmj
        have e2 := getAt_elem_count h' hmj'
        rw [← hab] at e2
        have := elem_pair_count hjj hmj hmj' (nid a)
        omega
      · subst hjj
        have hmm : mj = mj' := by
          rw [hmj] at hmj'
          injection hmj'
        subst hmm
        cases r with
        | nil =>
          cases r' with
          | nil => exact absurd rfl hne
          | cons b' l' =>
            have haj : mj = a := by
              rw [getAt] at h
              rw [hmj] at h
              injection h
            subst haj
            rw [getAt_cons_ne t j (by simp), hmj] at h'
            simp only [Option.some_bind] at h'
            have hmjd : isDeclNode mj = false := by
              cases hmjc : mj with
              | decl =>
                rw [hmjc, show kidsOf (Node.decl _ _ _) = [] from rfl,
                  getAt_nil_path] at h'
                exact Option.noConfusion h'
              | rule => rfl
              | other => rfl
            have hbk : (idsL (kidsOf mj)).count (nid mj) ≥ 1 := by
              have hc1 := subtree_count_le h' (nid b)
              have hc2 : (idsN b).count (nid b) ≥ 1 :=
                List.count_pos_iff.mpr (nid_mem_idsN b)
              rw [← hab] at hc1 hc2
              omega
            have hsub := subtree_count_le (p := [j]) (t := t) hmj (nid mj)
            rw [idsN_kids hmjd] at hsub
            simp only [List.count_cons] at hsub
            simp at hsub
            omega
        | cons c l =>
          cases r' with
          | nil =>
            have haj : mj = b := by
              rw [getAt] at h'
              rw [hmj] at h'
              injection h'
            subst haj
            rw [getAt_cons_ne t j (by simp), hmj] at h
            simp only [Option.some_bind] at h
            have hmjd : isDeclNode mj = false := by
              cases hmjc : mj with
              | decl =>
                rw [hmjc, show kidsOf (Node.decl _ _ _) = [] from rfl,
                  getAt_nil_path] at h
                exact Option.noConfusion h
              | rule => rfl
              | other => rfl
            have hbk : (idsL (kidsOf mj)).count (nid mj) ≥ 1 := by
              have hc1 := subtree_count_le h (nid a)
              have hc2 : (idsN a).count (nid a) ≥ 1 :=
                List.count_pos_iff.mpr (nid_mem_idsN a)
              rw [hab] at hc1 hc2
              omega
            have hsub := subtree_count_le (p := [j]) (t := t) hmj (nid mj)
            rw [idsN_kids hmjd] at hsub
            simp only [List.count_cons] at hsub
            simp at hsub
            rw [hab]
            omega
          | cons c' l' =>
            rw [getAt_cons_ne t j (by simp), hmj] at h
            rw [getAt_cons_ne t j (by simp), hmj] at h'
            simp only [Option.some_bind] at h h'
            have hrr : (c :: l) ≠ (c' :: l') := by
              intro he
              exact hne (by rw [he])
            have hk := ih (c' :: l') (kidsOf mj) a b h h' hab hrr
            have hmjd : isDeclNode mj = false := by
              cases hmjc : mj with
              | decl =>
                rw [hmjc, show kidsOf (Node.decl _ _ _) = [] from rfl,
                  getAt_nil_path] at h
                exact Option.noConfusion h
              | rule => rfl
              | other => rfl
            have hsub := subtree_count_le (p := [j]) (t := t) hmj (nid a)
            rw [idsN_kids hmjd] at hsub
            simp only [List.count_cons] at hsub
            omega
      · have e1 := getAt_elem_count h hmj
        have e2 := getAt_elem_count h' hmj'
        rw [← hab] at e2
        have := elem_pair_count hjj hmj' hmj (nid a)
        omega

/-! Preservation of declaration-bearing root children -/

theorem visit_skip_eq {t : List Node} {p : List Nat} {i : Nat} {sel : String}
    {ns : List Node} (h : getAt t p = some (Node.rule i sel ns))
    (hc : ¬ (2 ≤ p.length ∧ ns.any isDeclNode = true)) :
    visit t p = prune t p.dropLast := by
  rw [visit, h]
  show (if 2 ≤ p.length ∧ ns.any isDeclNode = true then
      prune (removeAt (t ++
        [Node.rule i (joinComma (buildFlattenedSelectors (chainAt t p))) ns]) p)
        p.dropLast
    else prune t p.dropLast) = _
  rw [if_neg hc]

theorem atRoot_append (l : List Node) {t : List Node} {x : Nat}
    (h : atRootDecl t x) : atRootDecl (t ++ l) x := by
  obtain ⟨k, n, hk, hn, hd⟩ := h
  exact ⟨k, n, by
    rw [List.getElem?_append_left (List.getElem?_eq_some_iff.mp hk).1]
    exact hk, hn, hd⟩

theorem hasDeclChild_removeAt {m w : Node} {rest : List Nat}
    (hget : getAt (kidsOf m) rest = some w) (hw : isDeclNode w = false) :
    hasDeclChild (withKids m (removeAt (kidsOf m) rest)) = hasDeclChild m := by
  cases m with
  | decl => rfl
  | rule d s ks =>
    show (removeAt ks rest).any isDeclNode = ks.any isDeclNode
    exact anyDecl_removeAt rest ks w hget hw
  | other => rfl

theorem atRoot_removeAt {t : List Node} {x j : Nat} {rest : List Nat} {w : Node}
    (hrest : rest ≠ []) (hget : getAt t (j :: rest) = some w)
    (hw : isDeclNode w = false) (h : atRootDecl t x) :
    atRootDecl (removeAt t (j :: rest)) x := by
  rw [getAt_cons_ne t j hrest] at hget
  cases hj : t[j]? with
  | none => rw [hj] at hget; simp at hget
  | some m =>
    rw [hj] at hget
    simp only [Option.some_bind] at hget
    rw [removeAt_deep hrest hj]
    obtain ⟨k, n, hk, hn, hd⟩ := h
    by_cases hkj : k = j
    · subst hkj
      have hnm : n = m := by
        rw [hj] at hk
        injection hk with h2
        exact h2.symm
      subst hnm
      refine ⟨k, withKids n (removeAt (kidsOf n) rest), ?_, ?_, ?_⟩
      · rw [List.getElem?_set_self (List.getElem?_eq_some_iff.mp hj).1]
      · rw [nid_withKids]; exact hn
      · rw [hasDeclChild_removeAt hget hw]; exact hd
    · exact ⟨k, n, by rw [List.getElem?_set_ne (fun he => hkj he.symm)]; exact hk,
        hn, hd⟩

theorem atRoot_eraseIdx {t : List Node} {x j d : Nat} {s : String}
    (hj : t[j]? = some (Node.rule d s [])) (h : atRootDecl t x) :
    atRootDecl (t.eraseIdx j) x := by
  obtain ⟨k, n, hk, hn, hd⟩ := h
  have hkj : k ≠ j := by
    intro he
    subst he
    rw [hj] at hk
    have : n = Node.rule d s [] := by
      injection hk with h2
      exact h2.symm
    rw [this] at hd
    exact Bool.noConfusion hd
  rcases Nat.lt_or_ge k j with hlt | hge
  · exact ⟨k, n, by rw [List.getElem?_eraseIdx_of_lt t j k hlt]; exact hk, hn, hd⟩
  · have hgt : j ≤ k - 1 := by omega
    refine ⟨k - 1, n, ?_, hn, hd⟩
    rw [List.getElem?_eraseIdx_of_ge t j (k - 1) hgt,
      show k - 1 + 1 = k by omega]
    exact hk

theorem atRoot_pruneAux :
    ∀ (rq : List Nat) (t : List Node) (x : Nat),
      atRootDecl t x → atRootDecl (pruneAux t rq) x := by
  intro rq
  induction rq with
  | nil => intro t x h; exact h
  | cons j rq' ih =>
    intro t x h
    rw [pruneAux]
    cases hg : getAt t ((j :: rq').reverse) with
    | none => exact h
    | some n =>
      cases n with
      | decl => exact h
      | other => exact h
      | rule d s ks =>
        cases ks with
        | cons k1 k2 => exact h
        | nil =>
          show atRootDecl (pruneAux (removeAt t ((j :: rq').reverse)) rq') x
          refine ih _ x ?_
          cases hq : (j :: rq').reverse with
          | nil => rw [hq, getAt] at hg; exact absurd hg (by simp)
          | cons jh qrest =>
            rw [hq] at hg
            cases qrest with
            | nil =>
              have hjh : t[jh]? = some (Node.rule d s []) := hg
              show atRootDecl (t.eraseIdx jh) x
              exact atRoot_eraseIdx hjh h
            | cons b l =>
              exact atRoot_removeAt (by simp) hg rfl h

theorem atRoot_prune (q : List Nat) {t : List Node} {x : Nat}
    (h : atRootDecl t x) : atRootDecl (prune t q) x :=
  atRoot_pruneAux q.reverse t x h

/-! The traversal invariant -/

theorem runStep_inv (input t : List Node) (i : Nat) (rem : List Nat)
    (hmi : MInv input t (i :: rem)) (hnd2 : (i :: rem).Nodup) :
    MInv input (runStep t i) rem := by
  obtain ⟨inv1, inv2, inv3, inv4⟩ := hmi
  have hinotrem : i ∉ rem := (List.nodup_cons.mp hnd2).1
  rw [runStep]
  cases hf : findIn i t with
  | none =>
    have hcnt : (idsL t).count i = 0 := findIn_none i t hf
    have hnoti : ∀ x, x ∈ ndrL false t → x ≠ i := by
      intro x hx he
      subst he
      obtain ⟨p', s', ns', hg, -, -⟩ := mem_ndrL x false t hx
      have hmem := getAt_nid_mem hg
      rw [show nid (Node.rule x s' ns') = x from rfl] at hmem
      exact absurd (List.count_pos_iff.mpr hmem) (by omega)
    refine ⟨?_, inv2, ?_, ?_⟩
    · intro x hx
      rcases List.mem_cons.mp (inv1 x hx) with he | hm
      · exact absurd he (hnoti x hx)
      · exact hm
    · intro x hxrem
      exact inv3 x (List.mem_cons_of_mem _ hxrem)
    · intro x hxin hxnot
      by_cases hxi : x = i
      · subst hxi
        have hc3 := inv3 x (List.mem_cons_self _ _)
        have hpos : 1 ≤ (ndrL false input).count x := List.count_pos_iff.mpr hxin
        have hxt : x ∈ ndrL false t := List.count_pos_iff.mp (by omega)
        exact absurd rfl (hnoti x hxt)
      · exact inv4 x hxin (by
          intro hm
          rcases List.mem_cons.mp hm with he | hm2
          · exact hxi he
          · exact hxnot hm2)
  | some p =>
    show MInv input (visit t p) rem
    obtain ⟨n, hget, hnid⟩ := findIn_sound i t p hf
    have huniq : i ∈ ndrL false t →
        ∃ sel2 ns2, n = Node.rule i sel2 ns2 ∧ ns2.any isDeclNode = true ∧
          flagAt false t p = true := by
      intro hi
      obtain ⟨p', s', ns', hg', ha', hfl'⟩ := mem_ndrL i false t hi
      by_cases hpp : p = p'
      · subst hpp
        rw [hget] at hg'
        have hne : n = Node.rule i s' ns' := by injection hg'
        exact ⟨s', ns', hne, ha', hfl'⟩
      · exfalso
        have h2 := distinct_count p p' t n (Node.rule i s' ns') hget hg'
          (by rw [hnid]; rfl) hpp
        rw [hnid] at h2
        have := List.nodup_iff_count_le_one.mp inv2 i
        omega
    by_cases hrule : ∃ sel2 ns2, n = Node.rule i sel2 ns2
    · obtain ⟨sel, ns, rfl⟩ := hrule
      by_cases hpm : 2 ≤ p.length ∧ ns.any isDeclNode = true
      · -- promotion
        have hv := visit_promote_eq t p i sel ns hget hpm.1 hpm.2
        obtain ⟨j0, prest, rfl⟩ : ∃ j0 prest, p = j0 :: prest := by
          cases p with
          | nil => rw [getAt] at hget; exact absurd hget (by simp)
          | cons a l => exact ⟨a, l, rfl⟩
        have hprest : prest ≠ [] := by
          intro he
          rw [he] at hpm
          have := hpm.1
          simp at this
        have hj0 : j0 < t.length := getAt_head_lt hget
        set clone := Node.rule i
          (joinComma (buildFlattenedSelectors (chainAt t (j0 :: prest)))) ns with hcl
        have hgets : getAt (t ++ [clone]) (j0 :: prest) = some (Node.rule i sel ns) := by
          rw [getAt_append_left [clone] j0 prest hj0]
          exact hget
        have hidsapp : ∀ x, (idsL (t ++ [clone])).count x =
            (idsL t).count x + (idsN (Node.rule i sel ns)).count x := by
          intro x
          rw [idsL_append, List.count_append]
          have hcl2 : idsL [clone] = idsN (Node.rule i sel ns) := by
            rw [hcl]
            simp [idsL, idsN]
          rw [hcl2]
        have hidsrem : ∀ x, (idsL (removeAt (t ++ [clone]) (j0 :: prest))).count x =
            (idsL t).count x := by
          intro x
          have h1 := ids_count_removeAt (j0 :: prest) (t ++ [clone]) _ hgets x
          have h2 := hidsapp x
          omega
        have hidsvisit : ∀ x, (idsL (visit t (j0 :: prest))).count x ≤
            (idsL t).count x := by
          intro x
          rw [hv]
          have h1 := ids_count_prune_le
            (removeAt (t ++ [clone]) (j0 :: prest)) ((j0 :: prest).dropLast) x
          have h2 := hidsrem x
          omega
        have hndrapp : ∀ x, (ndrL false (t ++ [clone])).count x =
            (ndrL false t).count x + (ndrL true ns).count x := by
          intro x
          rw [ndrL_append, List.count_append]
          have hcl2 : (ndrL false [clone]).count x = (ndrL true ns).count x := by
            rw [hcl]
            simp [ndrL, ndrN]
          rw [hcl2]
        have hflapp : flagAt false (t ++ [clone]) (j0 :: prest) =
            flagAt false t (j0 :: prest) :=
          flagAt_append false t [clone] j0 prest hj0
        have hndrN : ∀ y, (ndrN (flagAt false t (j0 :: prest))
            (Node.rule i sel ns)).count y =
            (if flagAt false t (j0 :: prest) = true ∧ y = i then 1 else 0) +
              (ndrL true ns).count y := by
          intro y
          rw [ndrN, hpm.2]
          by_cases hfl2 : flagAt false t (j0 :: prest) = true
          · rw [hfl2]
            by_cases hy : y = i
            · subst hy
              have h2 : ((if (true && true) = true then [y] else []) ++
                  ndrL true ns).count y = (ndrL true ns).count y + 1 := by
                simp [List.count_append]
              rw [h2, if_pos (⟨rfl, rfl⟩ : true = true ∧ y = y)]
              omega
            · have h2 : ((if (true && true) = true then [i] else []) ++
                  ndrL true ns).count y = (ndrL true ns).count y := by
                simp [List.count_append, List.count_cons, Ne.symm hy]
              rw [h2, if_neg (fun hc => hy hc.2)]
              omega
          · have hfl3 : flagAt false t (j0 :: prest) = false :=
              Bool.eq_false_iff.mpr hfl2
            rw [hfl3]
            have h2 : ((if (false && true) = true then [i] else []) ++
                ndrL true ns).count y = (ndrL true ns).count y := by
              simp [List.count_append]
            rw [h2, if_neg (by simp)]
            omega
        have hE1 : ∀ x, (ndrL false (visit t (j0 :: prest))).count x +
            (if flagAt false t (j0 :: prest) = true ∧ x = i then 1 else 0) =
            (ndrL false t).count x := by
          intro x
          rw [hv]
          have h1 := ndr_count_prune false
            (removeAt (t ++ [clone]) (j0 :: prest)) ((j0 :: prest).dropLast) x
          have h2 := ndr_count_removeAt (j0 :: prest) (t ++ [clone])
            (Node.rule i sel ns) false hgets rfl x
          rw [hflapp] at h2
          have h3 := hndrN x
          have h4 := hndrapp x
          omega
        refine ⟨?_, ?_, ?_, ?_⟩
        · intro x hx
          have hx1 : 1 ≤ (ndrL false (visit t (j0 :: prest))).count x :=
            List.count_pos_iff.mpr hx
          have hE := hE1 x
          have hxt : x ∈ ndrL false t := List.count_pos_iff.mp (by omega)
          rcases List.mem_cons.mp (inv1 x hxt) with he | hm
          · exfalso
            subst he
            obtain ⟨sel2, ns2, heq, ha2, hfl2⟩ := huniq hxt
            rw [if_pos ⟨hfl2, rfl⟩] at hE
            have hle1 := ndr_count_le_ids x false t
            have hle2 := List.nodup_iff_count_le_one.mp inv2 x
            omega
          · exact hm
        · rw [List.nodup_iff_count_le_one]
          intro x
          have h1 := hidsvisit x
          have h2 := List.nodup_iff_count_le_one.mp inv2 x
          omega
        · intro x hxrem
          have hxi : x ≠ i := fun he => hinotrem (he ▸ hxrem)
          have hE := hE1 x
          rw [if_neg (by rintro ⟨-, h2⟩; exact hxi h2)] at hE
          have h3 := inv3 x (List.mem_cons_of_mem _ hxrem)
          omega
        · intro x hxin hxnot
          by_cases hxi : x = i
          · subst hxi
            have hc3 := inv3 x (List.mem_cons_self _ _)
            have hpos : 1 ≤ (ndrL false input).count x := List.count_pos_iff.mpr hxin
            have hxt : x ∈ ndrL false t := List.count_pos_iff.mp (by omega)
            -- the clone sits at the end of the result, carrying x's declarations
            have hgl : (visit t (j0 :: prest)).getLast? = some clone := by
              rw [hv]
              obtain ⟨m0, hm0⟩ : ∃ m0, (t ++ [clone])[j0]? = some m0 := by
                cases hx0 : (t ++ [clone])[j0]? with
                | none =>
                  rw [getAt_cons_ne _ _ hprest, hx0] at hgets
                  simp at hgets
                | some m => exact ⟨m, rfl⟩
              have hrm : removeAt (t ++ [clone]) (j0 :: prest) =
                  (t ++ [clone]).set j0
                    (withKids m0 (removeAt (kidsOf m0) prest)) :=
                removeAt_deep hprest hm0
              have htlen : (t ++ [clone]).length = t.length + 1 := by
                rw [List.length_append]
                rfl
              have hlast0 : (removeAt (t ++ [clone]) (j0 :: prest)).getLast? =
                  some clone := by
                rw [hrm, set_getLast _ (by omega), List.getLast?_concat]
              have hdl : (j0 :: prest).dropLast = j0 :: prest.dropLast := by
                cases prest with
                | nil => exact absurd rfl hprest
                | cons a l => rfl
              obtain ⟨hres1, -⟩ := prune_getLast
                (t := removeAt (t ++ [clone]) (j0 :: prest))
                (q := (j0 :: prest).dropLast) (j := j0)
                (by rw [hdl]; rfl)
                (by rw [hrm, List.length_set]; omega)
              rw [hres1, hlast0]
            have hvlen : (visit t (j0 :: prest)) ≠ [] := by
              intro he
              rw [he] at hgl
              exact Option.noConfusion hgl
            refine ⟨(visit t (j0 :: prest)).length - 1, clone, ?_, ?_, ?_⟩
            · rw [← List.getLast?_eq_getElem?]
              exact hgl
            · rw [hcl]
              rfl
            · rw [hcl]
              show ns.any isDeclNode = true
              exact hpm.2
          · have har : atRootDecl t x := inv4 x hxin (by
              intro hm
              rcases List.mem_cons.mp hm with he | hm2
              · exact hxi he
              · exact hxnot hm2)
            rw [hv]
            apply atRoot_prune
            apply atRoot_removeAt hprest hgets rfl
            exact atRoot_append [clone] har
      · -- skip
        have hv : visit t (p) = prune t p.dropLast := visit_skip_eq hget hpm
        have hE : ∀ x, (ndrL false (visit t p)).count x = (ndrL false t).count x := by
          intro x
          rw [hv]
          exact ndr_count_prune false t p.dropLast x
        have hEids : ∀ x, (idsL (visit t p)).count x ≤ (idsL t).count x := by
          intro x
          rw [hv]
          exact ids_count_prune_le t p.dropLast x
        have hnoti : i ∉ ndrL false t := by
          intro hi
          obtain ⟨sel2, ns2, heq, ha2, hfl2⟩ := huniq hi
          injection heq with e1 e2 e3
          exact hpm ⟨flagAt_false_len hfl2, by rw [e3]; exact ha2⟩
        refine ⟨?_, ?_, ?_, ?_⟩
        · intro x hx
          have hxt : x ∈ ndrL false t :=
            List.count_pos_iff.mp (by rw [← hE x]; exact List.count_pos_iff.mpr hx)
          rcases List.mem_cons.mp (inv1 x hxt) with he | hm
          · exact absurd (he ▸ hxt) hnoti
          · exact hm
        · rw [List.nodup_iff_count_le_one]
          intro x
          have h1 := hEids x
          have h2 := List.nodup_iff_count_le_one.mp inv2 x
          omega
        · intro x hxrem
          rw [hE x]
          exact inv3 x (List.mem_cons_of_mem _ hxrem)
        · intro x hxin hxnot
          by_cases hxi : x = i
          · subst hxi
            have hc3 := inv3 x (List.mem_cons_self _ _)
            have hpos : 1 ≤ (ndrL false input).count x := List.count_pos_iff.mpr hxin
            have hxt : x ∈ ndrL false t := List.count_pos_iff.mp (by omega)
            exact absurd hxt hnoti
          · have har : atRootDecl t x := inv4 x hxin (by
              intro hm
              rcases List.mem_cons.mp hm with he | hm2
              · exact hxi he
              · exact hxnot hm2)
            rw [hv]
            exact atRoot_prune _ har
    · -- the identity belongs to a non-rule node: the visit is a no-op
      have hv : visit t p = t := by
        cases n with
        | decl => rw [visit, hget]
        | other => rw [visit, hget]
        | rule d2 s2 ns2 =>
          exact absurd ⟨s2, ns2, by rw [show d2 = i from hnid]⟩ hrule
      rw [hv]
      have hnoti : ∀ x, x ∈ ndrL false t → x ≠ i := by
        intro x hx he
        subst he
        obtain ⟨sel2, ns2, heq, -, -⟩ := huniq hx
        exact hrule ⟨sel2, ns2, heq⟩
      refine ⟨?_, inv2, ?_, ?_⟩
      · intro x hx
        rcases List.mem_cons.mp (inv1 x hx) with he | hm
        · exact absurd he (hnoti x hx)
        · exact hm
      · intro x hxrem
        exact inv3 x (List.mem_cons_of_mem _ hxrem)
      · intro x hxin hxnot
        by_cases hxi : x = i
        · subst hxi
          have hc3 := inv3 x (List.mem_cons_self _ _)
          have hpos : 1 ≤ (ndrL false input).count x := List.count_pos_iff.mpr hxin
          have hxt : x ∈ ndrL false t := List.count_pos_iff.mp (by omega)
          exact absurd rfl (hnoti x hxt)
        · exact inv4 x hxin (by
            intro hm
            rcases List.mem_cons.mp hm with he | hm2
            · exact hxi he
            · exact hxnot hm2)

theorem foldl_inv (input : List Node) :
    ∀ (rem : List Nat) (t : List Node), MInv input t rem → rem.Nodup →
      MInv input (rem.foldl runStep t) [] := by
  intro rem
  induction rem with
  | nil => intro t h _; exact h
  | cons i rem2 ih =>
    intro t h hnd
    rw [List.foldl_cons]
    exact ih (runStep t i) (runStep_inv input t i rem2 h hnd)
      (List.nodup_cons.mp hnd).2

/-! ## Claim theorems: the whole traversal -/

/-- C1: on any input tree with distinct node identities, after the transform
no rule with declaration children remains nested inside another rule
anywhere in the tree, and every rule that was nested inside a rule with
declaration children in the input survives (under its node identity) as a
direct child of the root, still carrying declaration children.  The
traversal itself (`onceExit`) is modelled from the spec, as PostCSS's
`walkRules` is not part of this repository. -/
theorem onceExit_flattens (roots : List Node) (hnd : (idsL roots).Nodup) :
    ndrL false (onceExit roots) = [] ∧
    ∀ x ∈ ndrL false roots, ∃ (j : Nat) (n : Node),
      (onceExit roots)[j]? = some n ∧ nid n = x ∧ hasDeclChild n = true := by
  have hwalknd : (ruleIdsL roots).Nodup := by
    rw [List.nodup_iff_count_le_one] at hnd ⊢
    intro x
    have := ruleIds_count_le x roots
    have := hnd x
    omega
  have hinit : MInv roots roots (ruleIdsL roots) :=
    ⟨fun x hx => mem_ndr_ruleIds x false roots hx, hnd, fun x _ => rfl,
      fun x hxin hxnot => absurd (mem_ndr_ruleIds x false roots hxin) hxnot⟩
  obtain ⟨f1, f2, f3, f4⟩ := foldl_inv roots (ruleIdsL roots) roots hinit hwalknd
  constructor
  · refine List.eq_nil_iff_forall_not_mem.mpr fun x hx => ?_
    exact absurd (f1 x hx) (List.not_mem_nil x)
  · intro x hx
    exact f4 x hx (List.not_mem_nil x)

/-- C1 witness: a two-level nesting with distinct identities; after the
transform no nested declaration-bearing rule remains, and the promoted rule
sits at the root. -/
theorem onceExit_flattens_witness :
    (idsL [Node.rule 0 ".a" [Node.rule 1 "&:hover" [Node.decl 2 "color" "red"]]]).Nodup ∧
    (ndrL false (onceExit
        [Node.rule 0 ".a" [Node.rule 1 "&:hover" [Node.decl 2 "color" "red"]]]) = [] ∧
      ∀ x ∈ ndrL false [Node.rule 0 ".a" [Node.rule 1 "&:hover" [Node.decl 2 "color" "red"]]],
        ∃ (j : Nat) (n : Node),
          (onceExit [Node.rule 0 ".a" [Node.rule 1 "&:hover" [Node.decl 2 "color" "red"]]])[j]? =
            some n ∧ nid n = x ∧ hasDeclChild n = true) :=
  ⟨by simp [idsL], onceExit_flattens
    [Node.rule 0 ".a" [Node.rule 1 "&:hover" [Node.decl 2 "color" "red"]]]
    (by simp [idsL])⟩

/-! Flat-tree lemmas for the idempotence claim -/

theorem ddrFree_elem :
    ∀ (l : List Node) (j : Nat) (m : Node), ddrFree l = true → l[j]? = some m →
      (∀ d s ns, m = Node.rule d s ns → ns.any isDeclNode = false) ∧
      ddrFree (kidsOf m) = true := by
  intro l
  induction l with
  | nil => intro j m _ h; simp at h
  | cons n tl ih =>
    intro j m hdf hj
    cases j with
    | zero =>
      have hm : n = m := by simpa using hj
      subst hm
      cases n with
      | decl d pr v =>
        rw [ddrFree] at hdf
        exact ⟨fun d' s' ns' he => Node.noConfusion he, by simp [kidsOf, ddrFree]⟩
      | rule d s ns =>
        rw [ddrFree] at hdf
        simp only [Bool.and_eq_true] at hdf
        refine ⟨fun d' s' ns' he => ?_, ?_⟩
        · injection he with e1 e2 e3
          subst e3
          have h0 := hdf.1.1
          simp only [Bool.not_eq_true'] at h0
          exact h0
        · exact hdf.1.2
      | other d ns =>
        rw [ddrFree] at hdf
        simp only [Bool.and_eq_true] at hdf
        exact ⟨fun d' s' ns' he => Node.noConfusion he, hdf.1⟩
    | succ j' =>
      have hj' : tl[j']? = some m := by simpa using hj
      have htl : ddrFree tl = true := by
        cases n with
        | decl =>
          rw [ddrFree] at hdf
          exact hdf
        | rule d s ns =>
          rw [ddrFree] at hdf
          simp only [Bool.and_eq_true] at hdf
          exact hdf.2
        | other d ns =>
          rw [ddrFree] at hdf
          simp only [Bool.and_eq_true] at hdf
          exact hdf.2
      exact ih j' m htl hj'

theorem ddrFree_getAt :
    ∀ (q : List Nat) (l : List Node), ddrFree l = true →
      ∀ (d : Nat) (s : String) (ns : List Node),
        getAt l q = some (Node.rule d s ns) → ns.any isDeclNode = false := by
  intro q
  induction q with
  | nil => intro l _ d s ns h; rw [getAt] at h; exact absurd h (by simp)
  | cons j rest ih =>
    intro l hdf d s ns h
    cases rest with
    | nil =>
      have hj : l[j]? = some (Node.rule d s ns) := h
      exact (ddrFree_elem l j _ hdf hj).1 d s ns rfl
    | cons a r2 =>
      rw [getAt_cons_ne l j (by simp)] at h
      cases hj : l[j]? with
      | none => rw [hj] at h; simp at h
      | some m =>
        rw [hj] at h
        simp only [Option.some_bind] at h
        exact ih (kidsOf m) (ddrFree_elem l j m hdf hj).2 d s ns h

theorem flatCond_deep {roots : List Node} (h : flatCond roots = true)
    (p : List Nat) (d : Nat) (s : String) (ns : List Node)
    (hg : getAt roots p = some (Node.rule d s ns)) (hlen : 2 ≤ p.length) :
    ns.any isDeclNode = false := by
  cases p with
  | nil => rw [getAt] at hg; exact absurd hg (by simp)
  | cons j rest =>
    have hrest : rest ≠ [] := by
      intro he
      rw [he] at hlen
      simp at hlen
    rw [getAt_cons_ne roots j hrest] at hg
    cases hj : roots[j]? with
    | none => rw [hj] at hg; simp at hg
    | some m =>
      rw [hj] at hg
      simp only [Option.some_bind] at hg
      have hmem : m ∈ roots := List.mem_iff_getElem?.mpr ⟨j, hj⟩
      have hdf : ddrFree (kidsOf m) = true := by
        rw [flatCond, List.all_eq_true] at h
        exact h m hmem
      exact ddrFree_getAt rest (kidsOf m) hdf d s ns hg

theorem prune_dropLast_id {t : List Node} {p : List Nat} {n : Node}
    (h : getAt t p = some n) : prune t p.dropLast = t := by
  have hpne : p ≠ [] := by
    intro he
    rw [he, getAt] at h
    exact absurd h (by simp)
  rcases Nat.lt_or_ge p.length 2 with hlen | hlen
  · have hdl : p.dropLast = [] := by
      cases p with
      | nil => rfl
      | cons a l =>
        cases l with
        | nil => rfl
        | cons b l2 =>
          exfalso
          simp only [List.length_cons] at hlen
          omega
    rw [hdl]
    exact prune_nil t
  · obtain ⟨q, k, rfl⟩ : ∃ q k, p = q ++ [k] :=
      ⟨p.dropLast, p.getLast hpne, (List.dropLast_append_getLast hpne).symm⟩
    have hq : q ≠ [] := by
      intro he
      subst he
      simp at hlen
    obtain ⟨par, hpar, hkid⟩ := getAt_snoc_parent h hq
    rw [List.dropLast_concat]
    refine prune_stop hpar ?_ hq
    intro s d he
    subst he
    rw [show kidsOf (Node.rule d s []) = [] from rfl] at hkid
    simp at hkid

theorem runStep_flat_id {roots : List Node} (h : flatCond roots = true) (i : Nat) :
    runStep roots i = roots := by
  rw [runStep]
  cases hf : findIn i roots with
  | none => rfl
  | some p =>
    show visit roots p = roots
    obtain ⟨n, hget, -⟩ := findIn_sound i roots p hf
    cases n with
    | decl d pr v => rw [visit, hget]
    | other d ns => rw [visit, hget]
    | rule d s ns =>
      rcases Nat.lt_or_ge p.length 2 with hlen | hlen
      · rw [visit_skip_eq hget (by rintro ⟨hx, -⟩; omega)]
        exact prune_dropLast_id hget
      · have hany := flatCond_deep h p d s ns hget hlen
        rw [visit_skip_eq hget (by
          rintro ⟨-, hx⟩
          rw [hany] at hx
          exact Bool.noConfusion hx)]
        exact prune_dropLast_id hget

/-- C8 (amended): the transform leaves unchanged every tree in which each
rule with declaration children is a direct child of the root (so running it
twice changes nothing).  This is the fixable part of the idempotence claim;
see the counterexample for the part the code violates. -/
theorem onceExit_flat_fixed (roots : List Node) (h : flatCond roots = true) :
    onceExit roots = roots := by
  rw [onceExit]
  have hall : ∀ l : List Nat, l.foldl runStep roots = roots := by
    intro l
    induction l with
    | nil => rfl
    | cons i l2 ih => rw [List.foldl_cons, runStep_flat_id h i, ih]
  exact hall _

/-- C8 amended witness: a flat stylesheet with a declaration-bearing root
rule and an empty at-rule is untouched. -/
theorem onceExit_flat_fixed_witness :
    flatCond [Node.rule 0 ".a" [Node.decl 1 "color" "red"], Node.other 2 []] = true ∧
    onceExit [Node.rule 0 ".a" [Node.decl 1 "color" "red"], Node.other 2 []] =
      [Node.rule 0 ".a" [Node.decl 1 "color" "red"], Node.other 2 []] :=
  ⟨by simp [flatCond, ddrFree, kidsOf],
    onceExit_flat_fixed [Node.rule 0 ".a" [Node.decl 1 "color" "red"], Node.other 2 []]
      (by simp [flatCond, ddrFree, kidsOf])⟩

/-- C8 counterexample: this tree is flat in the claim's sense (no rule with
declaration children nested inside another rule — the rule sits inside an
at-rule-like container), yet the transform changes it: the rule is promoted
out of the container to the root, leaving an empty shell, so the claim as
stated is false. -/
theorem onceExit_changes_flat_tree :
    ndrL false [Node.other 0 [Node.rule 1 ".b" [Node.decl 2 "x" "y"]]] = [] ∧
    onceExit [Node.other 0 [Node.rule 1 ".b" [Node.decl 2 "x" "y"]]] ≠
      [Node.other 0 [Node.rule 1 ".b" [Node.decl 2 "x" "y"]]] := by
  constructor
  · simp [ndrL, ndrN]
  · have h1 : ruleIdsL [Node.other 0 [Node.rule 1 ".b" [Node.decl 2 "x" "y"]]] = [1] := by
      simp [ruleIdsL]
    have h2 : findIn 1 [Node.other 0 [Node.rule 1 ".b" [Node.decl 2 "x" "y"]]] =
        some [0, 0] := by
      simp [findIn, shiftPath]
    have h3 : getAt [Node.other 0 [Node.rule 1 ".b" [Node.decl 2 "x" "y"]]] [0, 0] =
        some (Node.rule 1 ".b" [Node.decl 2 "x" "y"]) := by
      simp [getAt, kidsOf]
    rw [onceExit, h1, List.foldl_cons, List.foldl_nil, runStep, h2]
    show visit [Node.other 0 [Node.rule 1 ".b" [Node.decl 2 "x" "y"]]] [0, 0] ≠
      [Node.other 0 [Node.rule 1 ".b" [Node.decl 2 "x" "y"]]]
    rw [visit_promote_eq _ [0, 0] 1 ".b" [Node.decl 2 "x" "y"] h3 (by simp) rfl]
    have h5 : removeAt
        ([Node.other 0 [Node.rule 1 ".b" [Node.decl 2 "x" "y"]]] ++
          [Node.rule 1
            (joinComma (buildFlattenedSelectors
              (chainAt [Node.other 0 [Node.rule 1 ".b" [Node.decl 2 "x" "y"]]] [0, 0])))
            [Node.decl 2 "x" "y"]]) [0, 0] =
        [Node.other 0 [],
          Node.rule 1
            (joinComma (buildFlattenedSelectors
              (chainAt [Node.other 0 [Node.rule 1 ".b" [Node.decl 2 "x" "y"]]] [0, 0])))
            [Node.decl 2 "x" "y"]] := by
      simp [removeAt, kidsOf, withKids]
    rw [show ([0, 0] : List Nat).dropLast = [0] from rfl, h5]
    have h6 : ∀ z : Node, prune [Node.other 0 [], z] [0] = [Node.other 0 [], z] := by
      intro z
      rw [prune_eq _ (by simp)]
      have : getAt [Node.other 0 [], z] [0] = some (Node.other 0 []) := by
        simp [getAt]
      rw [this]
    rw [h6]
    simp

end UNS
